import Mathlib

/-!
Verification development for the TTS text chunker (`chunk_tts.py`).

The source is embedded shallowly over `List Char`.  Python strings become
`List Char`; Python's regex passes become explicit structurally recursive
scanners; the one unbounded loop of the program
(`fallback_split_by_commas_and_conjs`) is embedded with an explicit fuel
parameter and `Option`-valued result, `none` meaning the loop did not
finish within the given fuel.  The top-level entry points supply fuel
`text.length + 1`, which is proved sufficient whenever `max_len >= 1`.

Caveats of the embedding (noted where relevant): character classes
(`isspace`, `isalnum`, `\w`) are modelled at their ASCII meaning, and the
floating-point threshold `pos > len(window_slice) * 0.3` of the fallback
conjunction heuristic is modelled by the exact rational comparison
`10 * pos > 3 * len`, which agrees with the IEEE-double computation for
every window length below 2^49 (window lengths are bounded by the input
length in the program).
-/

/-- Python `str.isspace` for the ASCII whitespace characters. -/
def pyIsSpace (c : Char) : Bool :=
  c = ' ' || c = '\t' || c = '\n' || c = '\x0d' || c = '\x0b' || c = '\x0c'

/-- Python `str.isalnum`, restricted to ASCII letters and digits. -/
def pyIsAlnum (c : Char) : Bool :=
  c.isAlpha || c.isDigit

/-- A regex `\w` word character (ASCII). -/
def isWordChar (c : Char) : Bool :=
  c.isAlpha || c.isDigit || c = '_'

/-- ASCII letter, the `[A-Za-z]` class. -/
def isAsciiLetter (c : Char) : Bool :=
  c.isAlpha

/-- The dash-like characters `[-–—]` handled by `normalize_for_tts`. -/
def isDashLike (c : Char) : Bool :=
  c = '-' || c = '–' || c = '—'

/-- Python `str.strip()`: remove whitespace from both ends. -/
def pyStrip (l : List Char) : List Char :=
  ((l.dropWhile pyIsSpace).reverse.dropWhile pyIsSpace).reverse

/-- Python slice `l[a:b]` (for `a`, `b` non-negative). -/
def sliceL (l : List Char) (a b : Nat) : List Char :=
  (l.take b).drop a

/-- The non-whitespace characters of a string, in order. -/
def noWs (l : List Char) : List Char :=
  l.filter (fun c => !pyIsSpace c)

/-- Concatenation of a list of strings. -/
def concatL (ls : List (List Char)) : List Char :=
  ls.foldr (· ++ ·) []

/-- The `DISCOURSE` marker set of the source (module constant). -/
def DISCOURSE : List (List Char) :=
  ["however", "therefore", "moreover", "instead", "nevertheless",
   "nonetheless", "furthermore", "meanwhile", "particularly", "especially",
   "otherwise", "similarly", "consequently", "thus", "indeed",
   "additionally", "though"].map String.toList

/-- The `SUBORDINATORS` set of the source (module constant). -/
def SUBORDINATORS : List (List Char) :=
  ["when", "while", "where", "with", "before", "until", "because",
   "although", "though", "since", "after", "as", "if"].map String.toList

/-!
Pass 1 of `normalize_for_tts` (source lines 93-101): the regex
`re.sub(r"[-–—]([^–—\n]*?)[-–—]", replace_aside, text)`.  Because the inner
group is lazy and excludes dash-like characters, a match is: a dash-like
character, then the characters up to the next dash-like character (failing
if a newline intervenes), then that closing character.  The replacement
keeps the match unchanged when the trimmed inner span has no space, and
rewrites it to `", " + inner.strip() + ", "` otherwise; scanning resumes
after the match either way.  Embedded as a one-pass state machine whose
state is the pending open dash and the inner characters read so far
(in reverse).
-/
def asideAux : Option (Char × List Char) → List Char → List Char
  | none, [] => []
  | none, c :: rest =>
    if isDashLike c then asideAux (some (c, [])) rest
    else c :: asideAux none rest
  | some (d0, innerRev), [] => d0 :: innerRev.reverse
  | some (d0, innerRev), c :: rest =>
    if isDashLike c then
      let inner := innerRev.reverse
      (if (pyStrip inner).contains ' ' then
        ", ".toList ++ pyStrip inner ++ ", ".toList
      else d0 :: inner ++ [c]) ++ asideAux none rest
    else if c = '\n' then
      (d0 :: innerRev.reverse ++ [c]) ++ asideAux none rest
    else asideAux (some (d0, c :: innerRev)) rest

/-- Pass 1 of `normalize_for_tts`: bracketed asides. -/
def asidePass (l : List Char) : List Char :=
  asideAux none l

/-!
Pass 2 of `normalize_for_tts` (source lines 103-118): the regex
`re.sub(r"\b([A-Za-z]+)([-–—])([A-Za-z]+)\b", replace_word_dash_discourse)`.
A match is a maximal letter run starting at a word boundary, a dash-like
character, a second non-empty letter run, and a word boundary after it.
When the right-hand word lowercased is in `DISCOURSE`, the match is
replaced by `left + ", " + right`; otherwise it is kept; scanning resumes
after the match either way.  Embedded as a state machine; `DState.normal`
carries whether the previous original character is a word character (for
the leading `\b`); the other states carry the partial match read so far.
-/
inductive DState where
  | normal (prevWord : Bool)
  | w1 (l1Rev : List Char)
  | dash (l1Rev : List Char) (d : Char)
  | w2 (l1Rev : List Char) (d : Char) (l2Rev : List Char)

/-- Emission for a completed pass-2 match (`replace_word_dash_discourse`). -/
def discourseEmit (l1Rev : List Char) (d : Char) (l2Rev : List Char) : List Char :=
  let l1 := l1Rev.reverse
  let l2 := l2Rev.reverse
  if (l2.map Char.toLower) ∈ DISCOURSE then l1 ++ ", ".toList ++ l2
  else l1 ++ [d] ++ l2

/-- State machine for pass 2 of `normalize_for_tts`. -/
def discourseAux : DState → List Char → List Char
  | .normal _, [] => []
  | .normal pw, c :: rest =>
    if !pw && isAsciiLetter c then discourseAux (.w1 [c]) rest
    else c :: discourseAux (.normal (isWordChar c)) rest
  | .w1 l1Rev, [] => l1Rev.reverse
  | .w1 l1Rev, c :: rest =>
    if isAsciiLetter c then discourseAux (.w1 (c :: l1Rev)) rest
    else if isDashLike c then discourseAux (.dash l1Rev c) rest
    else l1Rev.reverse ++ c :: discourseAux (.normal (isWordChar c)) rest
  | .dash l1Rev d, [] => l1Rev.reverse ++ [d]
  | .dash l1Rev d, c :: rest =>
    if isAsciiLetter c then discourseAux (.w2 l1Rev d [c]) rest
    else l1Rev.reverse ++ [d] ++ c :: discourseAux (.normal (isWordChar c)) rest
  | .w2 l1Rev d l2Rev, [] => discourseEmit l1Rev d l2Rev
  | .w2 l1Rev d l2Rev, c :: rest =>
    if isAsciiLetter c then discourseAux (.w2 l1Rev d (c :: l2Rev)) rest
    else if isWordChar c then
      (l1Rev.reverse ++ [d] ++ l2Rev.reverse) ++ c :: discourseAux (.normal (isWordChar c)) rest
    else discourseEmit l1Rev d l2Rev ++ c :: discourseAux (.normal (isWordChar c)) rest

/-- Pass 2 of `normalize_for_tts`: word-dash-discourse rewriting. -/
def discoursePass (l : List Char) : List Char :=
  discourseAux (.normal false) l

/-!
Pass 3 of `normalize_for_tts` (source lines 120-145): the character loop.
`out` is the accumulated output in reverse (so the Python `chars[-1]`
inspection and mutation become head operations); `prev` is the previous
character of the ORIGINAL text (`text[i-1]`, `' '` at the start), and the
lookahead `nxt` is the next original character (`' '` at the end).
-/
def residAux (out : List Char) (prev : Char) : List Char → List Char
  | [] => out.reverse
  | ch :: rest =>
    let nxt := match rest with | [] => ' ' | n :: _ => n
    if isDashLike ch then
      if pyIsAlnum prev && pyIsAlnum nxt then residAux ('-' :: out) ch rest
      else
        if out.head? = some ' ' then residAux (' ' :: ',' :: out.tail) ch rest
        else if out.head? = some ',' then
          (if nxt ≠ ' ' then residAux (' ' :: out) ch rest
           else residAux out ch rest)
        else residAux (' ' :: ',' :: out) ch rest
    else residAux (ch :: out) ch rest

/-- Pass 3 of `normalize_for_tts`: residual dash reclassification. -/
def residualPass (l : List Char) : List Char :=
  residAux [] ' ' l

/-!
Pass 4 of `normalize_for_tts` (source lines 147-151): three regex
substitutions and a final strip, each embedded as a scanner.
-/

/-- `re.sub(r"\s+,", ",", text)`: a maximal whitespace run immediately
followed by a comma is deleted (the comma stays).  `buf` holds the pending
whitespace run in reverse. -/
def subWsCommaAux (buf : List Char) : List Char → List Char
  | [] => buf.reverse
  | c :: rest =>
    if pyIsSpace c then subWsCommaAux (c :: buf) rest
    else if c = ',' && buf ≠ [] then ',' :: subWsCommaAux [] rest
    else buf.reverse ++ c :: subWsCommaAux [] rest

/-- `re.sub(r"\s+,", ",", text)`. -/
def subWsComma (l : List Char) : List Char :=
  subWsCommaAux [] l

/-- `re.sub(r",\s*", ", ", text)`: every comma becomes `", "` and the
whitespace following it is consumed.  The flag records that we are
consuming the whitespace after a comma. -/
def subCommaWsAux (skip : Bool) : List Char → List Char
  | [] => []
  | c :: rest =>
    if skip && pyIsSpace c then subCommaWsAux true rest
    else if c = ',' then ',' :: ' ' :: subCommaWsAux true rest
    else c :: subCommaWsAux false rest

/-- `re.sub(r",\s*", ", ", text)`. -/
def subCommaWs (l : List Char) : List Char :=
  subCommaWsAux false l

/-- `re.sub(r"\s+", " ", text)`: collapse whitespace runs to one space.
The flag records that we are inside a whitespace run. -/
def collapseWsAux (inRun : Bool) : List Char → List Char
  | [] => []
  | c :: rest =>
    if pyIsSpace c then
      if inRun then collapseWsAux true rest
      else ' ' :: collapseWsAux true rest
    else c :: collapseWsAux false rest

/-- `re.sub(r"\s+", " ", text)`. -/
def collapseWs (l : List Char) : List Char :=
  collapseWsAux false l

/-- `normalize_for_tts` (source lines 76-151): the four passes in order. -/
def normalize_for_tts (l : List Char) : List Char :=
  pyStrip (collapseWs (subCommaWs (subWsComma (residualPass (discoursePass (asidePass l))))))

/-!
`split_into_paragraphs` (source lines 154-163): strip, then
`re.split(r"\n\s*\n+", text)`, then strip each part and drop empties.
A separator match is: a newline, then any whitespace, ending at the last
newline of the contiguous whitespace run that follows (the pattern needs at
least two newlines; trailing non-newline whitespace of the run stays with
the following part).  Embedded as a state machine: in the `run` state,
`pend` holds all characters of the run read so far (in reverse), `bRev`
those after the last newline seen (in reverse), and `two` whether a second
newline has been seen.
-/
inductive PState where
  | norm
  | run (pend : List Char) (bRev : List Char) (two : Bool)

/-- Prepend a prefix onto the first part of a split result. -/
def consHead (pre : List Char) : List (List Char) → List (List Char)
  | [] => [pre]
  | s :: ss => (pre ++ s) :: ss

/-- State machine for the paragraph separator split. -/
def paraAux : PState → List Char → List (List Char)
  | .norm, [] => [[]]
  | .norm, c :: rest =>
    if c = '\n' then paraAux (.run [c] [] false) rest
    else consHead [c] (paraAux .norm rest)
  | .run pend bRev two, [] =>
    if two then [[], bRev.reverse] else [pend.reverse]
  | .run pend bRev two, c :: rest =>
    if c = '\n' then paraAux (.run (c :: pend) [] true) rest
    else if pyIsSpace c then paraAux (.run (c :: pend) (c :: bRev) two) rest
    else if two then [] :: consHead (bRev.reverse ++ [c]) (paraAux .norm rest)
    else consHead (pend.reverse ++ [c]) (paraAux .norm rest)

/-- `split_into_paragraphs` (source lines 154-163). -/
def split_into_paragraphs (l : List Char) : List (List Char) :=
  let t := pyStrip l
  if t = [] then []
  else ((paraAux .norm t).map pyStrip).filter (· ≠ [])

/-!
`split_into_sentences` (source lines 166-180): collapse whitespace on the
stripped paragraph, then `re.split(r"(?<=[.!?])\s+", paragraph)`: split at
each maximal whitespace run whose preceding character is `.`, `!` or `?`
(the run is consumed).  If that yields a single part the collapsed
paragraph is returned as is; otherwise parts are stripped and empties
dropped.  `skipping` records that we are inside a consumed separator run;
`prev` is the previous character of the input (`' '` initially and after a
separator, which cannot enable a split).
-/
def isTermPunct (c : Char) : Bool :=
  c = '.' || c = '!' || c = '?'

/-- State machine for the sentence split. -/
def sentAux (skipping : Bool) (prev : Char) : List Char → List (List Char)
  | [] => [[]]
  | c :: rest =>
    if skipping && pyIsSpace c then sentAux true ' ' rest
    else if pyIsSpace c && isTermPunct prev then [] :: sentAux true ' ' rest
    else consHead [c] (sentAux false c rest)

/-- `split_into_sentences` (source lines 166-180). -/
def split_into_sentences (l : List Char) : List (List Char) :=
  let p := collapseWs (pyStrip l)
  if p = [] then []
  else
    let parts := sentAux false ' ' p
    if parts.length = 1 then [p]
    else (parts.map pyStrip).filter (· ≠ [])

/-- A produced `(chunk, rule)` pair before the final formatting pass. -/
structure Chunk where
  chunk : List Char
  rule : String
deriving DecidableEq, Repr

/-- A final chunk record `{chunk, rule, length}`. -/
structure ChunkRec where
  chunk : List Char
  rule : String
  length : Nat
deriving DecidableEq, Repr

/-- Case-insensitive whole-word match of `w` in `l` at offset `i`
(the regex `\b w \b` with `re.IGNORECASE`): the `w.length` characters at
`i` lowercase to `w`, and both neighbours are non-word (or absent). -/
def matchesWordAt (w l : List Char) (i : Nat) : Bool :=
  decide (((l.drop i).take w.length).map Char.toLower = w)
  && (decide (i = 0) || !isWordChar (l.getD (i - 1) ' '))
  && !isWordChar (l.getD (i + w.length) ' ')

/-- `find_subordinator_positions` (source lines 185-193): the sorted set of
start offsets of whole-word subordinator matches.  The source collects the
matches word by word and returns `sorted(set(starts))`; the filter over
`range` below produces that sorted deduplicated list directly. -/
def find_subordinator_positions (l : List Char) : List Nat :=
  (List.range l.length).filter (fun i => SUBORDINATORS.any (fun w => matchesWordAt w l i))

/-!
`fallback_split_by_commas_and_conjs` (source lines 275-346).  The loop is
embedded with a fuel parameter; `none` means the loop did not terminate
within the fuel.  The entry point passes fuel `text.length + 1`, proved
sufficient whenever `max_len >= 1`.
-/

/-- Python `text.find(c, a, b)` restricted to a single character: index of
the first occurrence in `[a, b)`, if any. -/
def findFromL (c : Char) : List Char → Option Nat
  | [] => none
  | x :: xs => if x = c then some 0 else (findFromL c xs).map (· + 1)

/-- `text.find(c, a, b)` (source line 315). -/
def strFind (l : List Char) (c : Char) (a b : Nat) : Option Nat :=
  (findFromL c (sliceL l a b)).map (· + a)

/-- Whether `pat` occurs in `l` starting at offset `i`. -/
def occursAt (pat l : List Char) (i : Nat) : Bool :=
  decide ((l.drop i).take pat.length = pat)

/-- Helper of `strRfind`: try offsets from `i` downward. -/
def strRfindAux (pat l : List Char) : Nat → Option Nat
  | 0 => if occursAt pat l 0 then some 0 else none
  | i + 1 => if occursAt pat l (i + 1) then some (i + 1) else strRfindAux pat l i

/-- Python `window_slice.rfind(pat)`: start of the last occurrence. -/
def strRfind (pat l : List Char) : Option Nat :=
  strRfindAux pat l l.length

/-- One candidate of the conjunction heuristic (source lines 324-328): the
last occurrence of `pat`, accepted only beyond 30% of the window.  The
Python comparison `pos > len(window_slice) * 0.3` uses an IEEE double; it
agrees with `10 * pos > 3 * len` for every `len` below 2^49, hence for all
window lengths arising from the program. -/
def conjTry (pat ws : List Char) : Option Nat :=
  match strRfind pat ws with
  | some p => if 10 * p > 3 * ws.length then some p else none
  | none => none

/-- The conjunction scan of the fallback (source lines 320-328): try
`" and "`, then `" or "`. -/
def conjPos (ws : List Char) : Option Nat :=
  (conjTry " and ".toList ws).orElse (fun _ => conjTry " or ".toList ws)

/-- Cut-point selection of one fallback iteration (source lines 310-336):
first comma in the window; else the accepted conjunction; else a hard cut
at the window's end.  Returns the cut offset and the rule tag. -/
def fallbackCut (l : List Char) (m : Nat) (base : String) (start : Nat) :
    Nat × String :=
  let windowEnd := min (start + m) l.length
  match strFind l ',' start windowEnd with
  | some p => (p + 1, base ++ "+comma_split")
  | none =>
    match conjPos (sliceL l start windowEnd) with
    | some p => (start + p, base ++ "+conj_split")
    | none => (windowEnd, base ++ "+length_limit")

/-- `start` advanced past leading whitespace (source lines 295-296). -/
def skipWsIdx (l : List Char) (start : Nat) : Nat :=
  start + ((l.drop start).takeWhile pyIsSpace).length

/-- The fallback loop (source lines 293-344), with fuel. -/
def fallbackLoopF (l : List Char) (m : Nat) (base : String) :
    Nat → Nat → Option (List Chunk)
  | 0, _ => none
  | fuel + 1, start0 =>
    let start := skipWsIdx l start0
    if l.length ≤ start then some []
    else if l.length - start ≤ m then
      let seg := pyStrip (sliceL l start l.length)
      some (if seg = [] then [] else [⟨seg, base ++ "+tail"⟩])
    else
      let cr := fallbackCut l m base start
      let seg := pyStrip (sliceL l start cr.1)
      (fallbackLoopF l m base fuel cr.1).map
        (fun rest => if seg = [] then rest else ⟨seg, cr.2⟩ :: rest)

/-- `fallback_split_by_commas_and_conjs` (source lines 275-346).  The
Python default for `base_rule` is `"length_fallback"`; callers that rely
on the default pass it explicitly here. -/
def fallback_split_by_commas_and_conjs (l : List Char) (m : Nat)
    (base : String) : Option (List Chunk) :=
  fallbackLoopF l m base (l.length + 1) 0

/-!
`split_by_subordinators` (source lines 196-229).  The Python loop
`for i, start in enumerate(starts)` with
`end = starts[i+1] if i+1 < len(starts) else len(sentence_text)` is
embedded as a recursion over the index `i`.
-/

/-- The clause loop of `split_by_subordinators` (source lines 213-227). -/
def subLoop (l : List Char) (m : Nat) (starts : List Nat) (i : Nat) :
    Option (List Chunk) :=
  if _h : i < starts.length then
    let start := starts.getD i 0
    let e := if i + 1 < starts.length then starts.getD (i + 1) 0 else l.length
    let clause := pyStrip (sliceL l start e)
    let restO := subLoop l m starts (i + 1)
    if clause = [] then restO
    else if clause.length ≤ m then
      restO.map (fun rest => ⟨clause, "clause_subordinator"⟩ :: rest)
    else
      match fallback_split_by_commas_and_conjs clause m "clause_subordinator", restO with
      | some a, some b => some (a ++ b)
      | _, _ => none
  else some []
termination_by starts.length - i
decreasing_by omega

/-- `split_by_subordinators` (source lines 196-229). -/
def split_by_subordinators (l : List Char) (m : Nat) : Option (List Chunk) :=
  match find_subordinator_positions l with
  | [] => fallback_split_by_commas_and_conjs l m "length_fallback"
  | s0 :: rest =>
    let starts := if s0 ≠ 0 then 0 :: s0 :: rest else s0 :: rest
    subLoop l m starts 0

/-!
`split_long_sentence` (source lines 232-272).  The comma segmentation
(positions of commas, slices `text[prev:pos+1]` plus the tail) is embedded
as a scanner that splits just after each comma; the resulting raw segments
concatenate to the input.
-/

/-- Raw comma segmentation: split just after every comma (source lines
244-256; segments are stripped and empties dropped by the caller). -/
def commaRaw : List Char → List (List Char)
  | [] => [[]]
  | c :: rest =>
    if c = ',' then [c] :: commaRaw rest
    else consHead [c] (commaRaw rest)

/-- The per-segment loop of `split_long_sentence` (source lines 258-267). -/
def commaSegLoop (m : Nat) : List (List Char) → Option (List Chunk)
  | [] => some []
  | seg :: rest =>
    if seg.length ≤ m then
      (commaSegLoop m rest).map (fun cs => ⟨seg, "comma_first"⟩ :: cs)
    else
      match split_by_subordinators seg m, commaSegLoop m rest with
      | some a, some b => some (a ++ b)
      | _, _ => none

/-- `split_long_sentence` (source lines 232-272). -/
def split_long_sentence (l : List Char) (m : Nat) : Option (List Chunk) :=
  if l.contains ',' then
    commaSegLoop m (((commaRaw l).map pyStrip).filter (· ≠ []))
  else split_by_subordinators l m

/-- The per-sentence step of `process_paragraph` (source lines 366-379). -/
def processSentence (s : List Char) (m : Nat) : Option (List Chunk) :=
  let t := pyStrip s
  if t = [] then some []
  else if t.length ≤ m then some [⟨t, "sentence"⟩]
  else split_long_sentence t m

/-- Sequence an `Option`-valued chunk producer over a list, concatenating
the results in order. -/
def concatMapO (f : List Char → Option (List Chunk)) :
    List (List Char) → Option (List Chunk)
  | [] => some []
  | x :: xs =>
    match f x, concatMapO f xs with
    | some a, some b => some (a ++ b)
    | _, _ => none

/-- `process_paragraph` (source lines 351-381). -/
def process_paragraph (p : List Char) (m : Nat) : Option (List Chunk) :=
  concatMapO (processSentence · m) (split_into_sentences p)

/-- The final formatting pass of `chunk_text` (source lines 405-415):
strip, drop empties, add the `length` field. -/
def finalFormat : List Chunk → List ChunkRec
  | [] => []
  | c :: rest =>
    let t := pyStrip c.chunk
    if t = [] then finalFormat rest
    else ⟨t, c.rule, t.length⟩ :: finalFormat rest

/-- `chunk_text` (source lines 386-417) over `List Char`. -/
def chunkTextL (l : List Char) (m : Nat) : Option (List ChunkRec) :=
  (concatMapO (process_paragraph · m) (split_into_paragraphs (normalize_for_tts l))).map
    finalFormat

/-- `chunk_text` (source lines 386-417): the full pipeline on a string.
`none` models non-termination of the fallback loop. -/
def chunk_text (s : String) (m : Nat) : Option (List ChunkRec) :=
  chunkTextL s.toList m

/-!
Specification-shaped counterpart of `split_by_subordinators`, following the
words of the claim: the sorted deduplicated match offsets are the clause
boundaries, a boundary `0` is inserted when the first offset is not `0`,
and each consecutive boundary pair `[start_i, start_{i+1})` (the last
extending to the end of the text) yields one clause, emitted when within
budget and handed to Tier 3 with base rule `clause_subordinator` otherwise.
-/

/-- Per-clause emission over the list of boundary pairs (spec shape). -/
def pairsLoop (l : List Char) (m : Nat) : List (Nat × Nat) → Option (List Chunk)
  | [] => some []
  | (a, b) :: ps =>
    let clause := pyStrip (sliceL l a b)
    let restO := pairsLoop l m ps
    if clause = [] then restO
    else if clause.length ≤ m then
      restO.map (fun rest => ⟨clause, "clause_subordinator"⟩ :: rest)
    else
      match fallback_split_by_commas_and_conjs clause m "clause_subordinator", restO with
      | some a, some b => some (a ++ b)
      | _, _ => none

/-- Invariant of the paragraph scanner state: all pending characters of a
separator run are whitespace. -/
def pInv : PState → Prop
  | .norm => True
  | .run pend bRev _ =>
    (∀ c ∈ pend, pyIsSpace c = true) ∧ (∀ c ∈ bRev, pyIsSpace c = true)

/-- The Tier-2 splitter as described by the claim (spec shape). -/
def subSplitSpec (l : List Char) (m : Nat) : Option (List Chunk) :=
  match find_subordinator_positions l with
  | [] => fallback_split_by_commas_and_conjs l m "length_fallback"
  | s0 :: rest =>
    let bs := if s0 = 0 then s0 :: rest else 0 :: s0 :: rest
    pairsLoop l m (bs.zip (bs.drop 1 ++ [l.length]))

/-! Basic lemmas about `noWs`, `pyStrip` and `sliceL`. -/

theorem noWs_append (a b : List Char) : noWs (a ++ b) = noWs a ++ noWs b := by
  simp [noWs]

theorem noWs_cons_ws {c : Char} (h : pyIsSpace c = true) (l : List Char) :
    noWs (c :: l) = noWs l := by
  simp [noWs, List.filter_cons, h]

theorem noWs_cons_not_ws {c : Char} (h : pyIsSpace c = false) (l : List Char) :
    noWs (c :: l) = c :: noWs l := by
  simp [noWs, List.filter_cons, h]

theorem noWs_of_all_ws {l : List Char} (h : ∀ c ∈ l, pyIsSpace c = true) :
    noWs l = [] := by
  induction l with
  | nil => rfl
  | cons c rest ih =>
    rw [noWs_cons_ws (h c (by simp))]
    exact ih (fun d hd => h d (by simp [hd]))

theorem noWs_reverse (l : List Char) : noWs l.reverse = (noWs l).reverse := by
  simp [noWs]

theorem noWs_dropWhile (l : List Char) :
    noWs (l.dropWhile pyIsSpace) = noWs l := by
  induction l with
  | nil => rfl
  | cons c rest ih =>
    by_cases h : pyIsSpace c = true
    · rw [List.dropWhile_cons_of_pos h, ih, noWs_cons_ws h]
    · rw [List.dropWhile_cons_of_neg h]

theorem noWs_pyStrip (l : List Char) : noWs (pyStrip l) = noWs l := by
  unfold pyStrip
  rw [noWs_reverse, noWs_dropWhile, noWs_reverse, List.reverse_reverse,
    noWs_dropWhile]


theorem length_dropWhile_le (p : Char → Bool) (l : List Char) :
    (l.dropWhile p).length ≤ l.length :=
  (List.dropWhile_suffix p).sublist.length_le

theorem pyStrip_length_le (l : List Char) : (pyStrip l).length ≤ l.length := by
  unfold pyStrip
  calc ((l.dropWhile pyIsSpace).reverse.dropWhile pyIsSpace).reverse.length
      = ((l.dropWhile pyIsSpace).reverse.dropWhile pyIsSpace).length := by
        simp
    _ ≤ (l.dropWhile pyIsSpace).reverse.length :=
        length_dropWhile_le pyIsSpace _
    _ = (l.dropWhile pyIsSpace).length := by simp
    _ ≤ l.length := length_dropWhile_le pyIsSpace l

theorem dropWhile_dropWhile (p : Char → Bool) (l : List Char) :
    (l.dropWhile p).dropWhile p = l.dropWhile p := by
  induction l with
  | nil => rfl
  | cons c rest ih =>
    by_cases h : p c = true
    · rw [List.dropWhile_cons_of_pos h, ih]
    · rw [List.dropWhile_cons_of_neg h, List.dropWhile_cons_of_neg h]

theorem dropWhile_head_false {p : Char → Bool} {l : List Char} {c : Char}
    {t : List Char} (h : l.dropWhile p = c :: t) : p c = false := by
  have := List.head?_dropWhile_not p l
  rw [h] at this
  simpa using this

theorem dropWhile_eq_self_of_head {p : Char → Bool} {l : List Char}
    (h : ∀ c t, l = c :: t → p c = false) : l.dropWhile p = l := by
  cases l with
  | nil => rfl
  | cons c t => exact List.dropWhile_cons_of_neg (by simp [h c t rfl])

theorem pyStrip_dropWhile (x : List Char) :
    (pyStrip x).dropWhile pyIsSpace = pyStrip x := by
  apply dropWhile_eq_self_of_head
  intro c t hct
  have h1 : (pyStrip x).head? = some c := by rw [hct]; rfl
  unfold pyStrip at h1
  rw [List.head?_reverse] at h1
  have hyne : (x.dropWhile pyIsSpace).reverse.dropWhile pyIsSpace ≠ [] := by
    intro h0
    rw [h0] at h1
    simp at h1
  obtain ⟨pre, hpre⟩ :=
    List.dropWhile_suffix (l := (x.dropWhile pyIsSpace).reverse) pyIsSpace
  have h2 := List.getLast?_append_of_ne_nil pre hyne
  rw [hpre] at h2
  rw [← h2, List.getLast?_reverse] at h1
  cases hdx : x.dropWhile pyIsSpace with
  | nil =>
    rw [hdx] at h1
    simp at h1
  | cons a t2 =>
    rw [hdx] at h1
    simp at h1
    rw [← h1]
    exact dropWhile_head_false hdx

theorem pyStrip_idem (l : List Char) : pyStrip (pyStrip l) = pyStrip l := by
  have step1 : pyStrip (pyStrip l) =
      (((pyStrip l).dropWhile pyIsSpace).reverse.dropWhile pyIsSpace).reverse := rfl
  rw [step1, pyStrip_dropWhile]
  have step2 : (pyStrip l).reverse =
      (l.dropWhile pyIsSpace).reverse.dropWhile pyIsSpace := by
    unfold pyStrip
    rw [List.reverse_reverse]
  rw [step2, dropWhile_dropWhile]
  rfl

theorem pyStrip_within (l : List Char) : pyStrip l <:+: l := by
  unfold pyStrip
  have h1 : l.dropWhile pyIsSpace <:+ l := List.dropWhile_suffix pyIsSpace
  have h2 : (l.dropWhile pyIsSpace).reverse.dropWhile pyIsSpace <:+
      (l.dropWhile pyIsSpace).reverse := List.dropWhile_suffix pyIsSpace
  have h3 : ((l.dropWhile pyIsSpace).reverse.dropWhile pyIsSpace).reverse <+:
      (l.dropWhile pyIsSpace) := by
    rw [← List.reverse_suffix]
    simpa using h2
  exact h3.isInfix.trans h1.isInfix

theorem pyStrip_nil_noWs {l : List Char} (h : pyStrip l = []) : noWs l = [] := by
  rw [← noWs_pyStrip, h]
  rfl

theorem sliceL_length_le (l : List Char) (a b : Nat) :
    (sliceL l a b).length ≤ b - a := by
  unfold sliceL
  simp only [List.length_drop, List.length_take]
  omega

theorem sliceL_full (l : List Char) : sliceL l 0 l.length = l := by
  simp [sliceL]

theorem sliceL_from (l : List Char) (a : Nat) :
    sliceL l a l.length = l.drop a := by
  simp [sliceL]

theorem sliceL_eq_drop_take {l : List Char} {a b : Nat} (h : a ≤ b) :
    sliceL l a b = (l.drop a).take (b - a) := by
  unfold sliceL
  rw [List.take_drop]
  congr 2
  omega

theorem take_add_drop (x : List Char) (n k : Nat) :
    x.take n ++ (x.drop n).take k = x.take (n + k) := by
  by_cases h : n ≤ x.length
  · conv_rhs => rw [← List.take_append_drop n x]
    rw [List.take_append_eq_append_take]
    congr 1
    · rw [List.take_take]
      congr 1
      omega
    · congr 1
      rw [List.length_take]
      omega
  · have h1 : x.drop n = [] := List.drop_eq_nil_of_le (by omega)
    have h2 : x.take n = x := List.take_of_length_le (by omega)
    have h3 : x.take (n + k) = x := List.take_of_length_le (by omega)
    rw [h1, h2, h3]
    simp

theorem sliceL_append {l : List Char} {a b c : Nat} (h1 : a ≤ b) (h2 : b ≤ c) :
    sliceL l a b ++ sliceL l b c = sliceL l a c := by
  rw [sliceL_eq_drop_take h1, sliceL_eq_drop_take h2,
    sliceL_eq_drop_take (le_trans h1 h2)]
  have hd : l.drop b = (l.drop a).drop (b - a) := by
    rw [List.drop_drop]
    congr 1
    omega
  rw [hd, take_add_drop]
  congr 1
  omega

/-! Lemmas about `findFromL`, `occursAt`, `strRfind`, `conjPos`. -/

theorem findFromL_spec {c : Char} {x : List Char} {k : Nat}
    (h : findFromL c x = some k) :
    k < x.length ∧ x.get? k = some c ∧ ∀ j, j < k → x.get? j ≠ some c := by
  induction x generalizing k with
  | nil => simp [findFromL] at h
  | cons a t ih =>
    rw [findFromL] at h
    by_cases ha : a = c
    · rw [if_pos ha] at h
      cases h
      refine ⟨by simp, by simp [ha], ?_⟩
      intro j hj
      omega
    · rw [if_neg ha] at h
      cases hk0 : findFromL c t with
      | none =>
        rw [hk0] at h
        simp at h
      | some k0 =>
        rw [hk0] at h
        simp at h
        obtain ⟨h1, h2, h3⟩ := ih hk0
        refine ⟨by simp; omega, by rw [← h]; simpa using h2, ?_⟩
        intro j hj
        cases j with
        | zero => simpa using ha
        | succ j0 =>
          simp only [List.get?_cons_succ]
          exact h3 j0 (by omega)

theorem findFromL_of_spec {c : Char} {x : List Char} {k : Nat}
    (h1 : x.get? k = some c) (h2 : ∀ j, j < k → x.get? j ≠ some c) :
    findFromL c x = some k := by
  induction x generalizing k with
  | nil => simp at h1
  | cons a t ih =>
    cases k with
    | zero =>
      simp at h1
      rw [findFromL, if_pos h1]
    | succ k0 =>
      have ha : a ≠ c := by
        have := h2 0 (by omega)
        simpa using this
      rw [findFromL, if_neg ha]
      have := ih (by simpa using h1) (fun j hj => by
        have := h2 (j + 1) (by omega)
        simpa using this)
      rw [this]
      rfl

theorem findFromL_none_of {c : Char} {x : List Char}
    (h : ∀ j, x.get? j ≠ some c) : findFromL c x = none := by
  induction x with
  | nil => rfl
  | cons a t ih =>
    have ha : a ≠ c := by
      have := h 0
      simpa using this
    rw [findFromL, if_neg ha, ih (fun j => by
      have := h (j + 1)
      simpa using this)]
    rfl

theorem occursAt_bound {pat l : List Char} {p : Nat} (hne : pat ≠ [])
    (h : occursAt pat l p = true) : p + pat.length ≤ l.length := by
  unfold occursAt at h
  have heq : (l.drop p).take pat.length = pat := of_decide_eq_true h
  have hlen := congrArg List.length heq
  simp only [List.length_take, List.length_drop] at hlen
  have hpos : 0 < pat.length := List.length_pos.mpr hne
  omega

theorem strRfindAux_occurs {pat l : List Char} {n p : Nat}
    (h : strRfindAux pat l n = some p) :
    occursAt pat l p = true ∧ p ≤ n := by
  induction n with
  | zero =>
    rw [strRfindAux] at h
    by_cases h0 : occursAt pat l 0 = true
    · rw [if_pos h0] at h
      cases h
      exact ⟨h0, Nat.le_refl 0⟩
    · rw [if_neg h0] at h
      cases h
  | succ n0 ih =>
    rw [strRfindAux] at h
    by_cases h0 : occursAt pat l (n0 + 1) = true
    · rw [if_pos h0] at h
      cases h
      exact ⟨h0, Nat.le_refl _⟩
    · rw [if_neg h0] at h
      obtain ⟨ho, hle⟩ := ih h
      exact ⟨ho, by omega⟩

theorem strRfindAux_of_spec {pat l : List Char} {n p : Nat}
    (h1 : occursAt pat l p = true)
    (hmax : ∀ q, occursAt pat l q = true → q ≤ p) (hpn : p ≤ n) :
    strRfindAux pat l n = some p := by
  induction n with
  | zero =>
    have : p = 0 := by omega
    subst this
    rw [strRfindAux, if_pos h1]
  | succ n0 ih =>
    by_cases hn : p = n0 + 1
    · subst hn
      rw [strRfindAux, if_pos h1]
    · have hle : p ≤ n0 := by omega
      have hnot : occursAt pat l (n0 + 1) ≠ true := by
        intro hocc
        have := hmax _ hocc
        omega
      rw [strRfindAux, if_neg hnot]
      exact ih hle

theorem strRfindAux_is_none {pat l : List Char} {n : Nat}
    (h : ∀ q, q ≤ n → occursAt pat l q = false) :
    strRfindAux pat l n = none := by
  induction n with
  | zero => rw [strRfindAux, if_neg (by simp [h 0 (Nat.le_refl 0)])]
  | succ n0 ih =>
    rw [strRfindAux, if_neg (by simp [h (n0 + 1) (Nat.le_refl _)])]
    exact ih (fun q hq => h q (by omega))

theorem conjTry_some {pat ws : List Char} {p : Nat}
    (h : conjTry pat ws = some p) :
    occursAt pat ws p = true ∧ 10 * p > 3 * ws.length := by
  unfold conjTry at h
  cases h0 : strRfind pat ws with
  | none =>
    rw [h0] at h
    cases h
  | some p0 =>
    rw [h0] at h
    dsimp only at h
    by_cases hth : 10 * p0 > 3 * ws.length
    · rw [if_pos hth] at h
      cases h
      exact ⟨(strRfindAux_occurs h0).1, hth⟩
    · rw [if_neg hth] at h
      cases h

theorem conjTry_of_spec {pat ws : List Char} {p : Nat}
    (h1 : occursAt pat ws p = true)
    (hmax : ∀ q, occursAt pat ws q = true → q ≤ p)
    (hth : 10 * p > 3 * ws.length) : conjTry pat ws = some p := by
  have hple : p ≤ ws.length := by
    by_contra hgt
    unfold occursAt at h1
    have heq : (ws.drop p).take pat.length = pat := of_decide_eq_true h1
    have hd : ws.drop p = [] := List.drop_eq_nil_of_le (by omega)
    rw [hd] at heq
    simp at heq
    have hnext : occursAt pat ws (p + 1) = true := by
      unfold occursAt
      rw [heq]
      simp
    have := hmax _ hnext
    omega
  unfold conjTry strRfind
  rw [strRfindAux_of_spec h1 hmax hple]
  dsimp only
  rw [if_pos hth]

theorem conjTry_none_of {pat ws : List Char}
    (h : ∀ q, occursAt pat ws q = true → 10 * q ≤ 3 * ws.length) :
    conjTry pat ws = none := by
  unfold conjTry
  cases h0 : strRfind pat ws with
  | none => rfl
  | some p0 =>
    have := h p0 (strRfindAux_occurs h0).1
    dsimp only
    rw [if_neg (by omega)]

theorem conjPos_some {ws : List Char} {p : Nat} (h : conjPos ws = some p) :
    10 * p > 3 * ws.length ∧
      (occursAt " and ".toList ws p = true ∨ occursAt " or ".toList ws p = true) := by
  unfold conjPos at h
  cases h0 : conjTry " and ".toList ws with
  | some p0 =>
    rw [h0] at h
    simp [Option.orElse] at h
    subst h
    obtain ⟨ho, hth⟩ := conjTry_some h0
    exact ⟨hth, Or.inl ho⟩
  | none =>
    rw [h0] at h
    simp [Option.orElse] at h
    obtain ⟨ho, hth⟩ := conjTry_some h
    exact ⟨hth, Or.inr ho⟩

theorem sliceL_length_eq {l : List Char} {a b : Nat} (h1 : a ≤ b)
    (h2 : b ≤ l.length) : (sliceL l a b).length = b - a := by
  unfold sliceL
  simp only [List.length_drop, List.length_take]
  omega

theorem strFind_some_spec {l : List Char} {c : Char} {a b p : Nat}
    (h : strFind l c a b = some p) :
    a ≤ p ∧ p < a + (sliceL l a b).length := by
  unfold strFind at h
  cases h0 : findFromL c (sliceL l a b) with
  | none =>
    rw [h0] at h
    cases h
  | some k =>
    rw [h0] at h
    simp at h
    obtain ⟨hk, _, _⟩ := findFromL_spec h0
    omega

theorem fallbackCut_bounds {l : List Char} {m : Nat} {base : String}
    {start : Nat} (hs : start ≤ l.length) :
    start ≤ (fallbackCut l m base start).1 ∧
      (fallbackCut l m base start).1 ≤ start + m ∧
      (fallbackCut l m base start).1 ≤ l.length := by
  unfold fallbackCut
  dsimp only
  split
  · next p h0 =>
      obtain ⟨hp1, hp2⟩ := strFind_some_spec h0
      have hsl : (sliceL l start (min (start + m) l.length)).length ≤
          min (start + m) l.length - start := sliceL_length_le l _ _
      simp only
      omega
  · next h0 =>
      split
      · next p h1 =>
          obtain ⟨hth, hocc⟩ := conjPos_some h1
          have hb : p < (sliceL l start (min (start + m) l.length)).length := by
            rcases hocc with ho | ho
            · have := occursAt_bound (by decide) ho
              simp at this
              omega
            · have := occursAt_bound (by decide) ho
              simp at this
              omega
          have hsl : (sliceL l start (min (start + m) l.length)).length ≤
              min (start + m) l.length - start := sliceL_length_le l _ _
          simp only
          omega
      · next h1 =>
          simp only
          omega

theorem fallbackCut_progress {l : List Char} {m : Nat} {base : String}
    {start : Nat} (hm : 1 ≤ m) (hs : start + m < l.length) :
    start < (fallbackCut l m base start).1 := by
  unfold fallbackCut
  dsimp only
  have hmin : min (start + m) l.length = start + m := by omega
  split
  · next p h0 =>
      obtain ⟨hp1, hp2⟩ := strFind_some_spec h0
      simp only
      omega
  · next h0 =>
      split
      · next p h1 =>
          obtain ⟨hth, _⟩ := conjPos_some h1
          have hlen : (sliceL l start (min (start + m) l.length)).length = m := by
            rw [hmin, sliceL_length_eq (by omega) (by omega)]
            omega
          rw [hlen] at hth
          simp only
          omega
      · next h1 =>
          simp only
          omega

theorem fallbackCut_rule {l : List Char} {m : Nat} {base : String}
    {start : Nat} :
    (fallbackCut l m base start).2 = base ++ "+comma_split" ∨
      (fallbackCut l m base start).2 = base ++ "+conj_split" ∨
      (fallbackCut l m base start).2 = base ++ "+length_limit" := by
  unfold fallbackCut
  dsimp only
  split
  · exact Or.inl rfl
  · split
    · exact Or.inr (Or.inl rfl)
    · exact Or.inr (Or.inr rfl)

/-! Lemmas about the fallback loop. -/

theorem skipWsIdx_ge (l : List Char) (start : Nat) : start ≤ skipWsIdx l start := by
  unfold skipWsIdx
  omega

theorem drop_skipWsIdx (l : List Char) (start : Nat) :
    l.drop (skipWsIdx l start) = (l.drop start).dropWhile pyIsSpace := by
  unfold skipWsIdx
  rw [← List.drop_drop]
  have hkey := @List.drop_left' Char ((l.drop start).takeWhile pyIsSpace)
    ((l.drop start).dropWhile pyIsSpace)
    ((l.drop start).takeWhile pyIsSpace).length rfl
  rw [List.takeWhile_append_dropWhile] at hkey
  exact hkey

theorem noWs_drop_skipWsIdx (l : List Char) (start : Nat) :
    noWs (l.drop (skipWsIdx l start)) = noWs (l.drop start) := by
  rw [drop_skipWsIdx, noWs_dropWhile]

theorem concatL_cons (x : List Char) (xs : List (List Char)) :
    concatL (x :: xs) = x ++ concatL xs := rfl

theorem fallbackLoop_mem {l : List Char} {m : Nat} {base : String} :
    ∀ (fuel start0 : Nat) (cs : List Chunk),
      fallbackLoopF l m base fuel start0 = some cs →
      ∀ c ∈ cs, c.chunk.length ≤ m ∧
        (c.rule = base ++ "+comma_split" ∨ c.rule = base ++ "+conj_split" ∨
          c.rule = base ++ "+length_limit" ∨ c.rule = base ++ "+tail") := by
  intro fuel
  induction fuel with
  | zero =>
    intro start0 cs h
    simp [fallbackLoopF] at h
  | succ fuel ih =>
    intro start0 cs h c hc
    rw [fallbackLoopF] at h
    dsimp only at h
    split at h
    · -- start past the end: empty result
      cases h
      simp at hc
    · split at h
      · -- tail branch
        next hlt hle =>
        cases h
        by_cases hseg : pyStrip (sliceL l (skipWsIdx l start0) l.length) = []
        · rw [if_pos hseg] at hc
          simp at hc
        · rw [if_neg hseg] at hc
          simp at hc
          subst hc
          constructor
          · calc (pyStrip (sliceL l (skipWsIdx l start0) l.length)).length
                ≤ (sliceL l (skipWsIdx l start0) l.length).length :=
                  pyStrip_length_le _
              _ = (l.drop (skipWsIdx l start0)).length := by rw [sliceL_from]
              _ ≤ m := by
                  rw [List.length_drop]
                  omega
          · exact Or.inr (Or.inr (Or.inr rfl))
      · -- window branch
        next hlt hgt =>
        rw [Option.map_eq_some'] at h
        obtain ⟨rest, hrest, hcs⟩ := h
        have hsle : skipWsIdx l start0 ≤ l.length := by omega
        have hcut := @fallbackCut_bounds l m base (skipWsIdx l start0) hsle
        by_cases hseg : pyStrip (sliceL l (skipWsIdx l start0)
            (fallbackCut l m base (skipWsIdx l start0)).1) = []
        · rw [if_pos hseg] at hcs
          subst hcs
          exact ih _ rest hrest c hc
        · rw [if_neg hseg] at hcs
          subst hcs
          rcases List.mem_cons.mp hc with hc | hc
          · subst hc
            constructor
            · calc (pyStrip (sliceL l (skipWsIdx l start0)
                    (fallbackCut l m base (skipWsIdx l start0)).1)).length
                  ≤ (sliceL l (skipWsIdx l start0)
                    (fallbackCut l m base (skipWsIdx l start0)).1).length :=
                    pyStrip_length_le _
                _ ≤ (fallbackCut l m base (skipWsIdx l start0)).1 -
                    skipWsIdx l start0 := sliceL_length_le l _ _
                _ ≤ m := by omega
            · rcases @fallbackCut_rule l m base (skipWsIdx l start0)
                with hr | hr | hr
              · exact Or.inl hr
              · exact Or.inr (Or.inl hr)
              · exact Or.inr (Or.inr (Or.inl hr))
          · exact ih _ rest hrest c hc

theorem fallbackLoop_isSome {l : List Char} {m : Nat} {base : String}
    (hm : 1 ≤ m) :
    ∀ (fuel start0 : Nat), l.length - start0 < fuel →
      (fallbackLoopF l m base fuel start0).isSome = true := by
  intro fuel
  induction fuel with
  | zero =>
    intro start0 h
    omega
  | succ fuel ih =>
    intro start0 hfuel
    rw [fallbackLoopF]
    dsimp only
    split
    · rfl
    · split
      · rfl
      · next hlt hgt =>
          rw [Option.isSome_map']
          have hs0 := skipWsIdx_ge l start0
          have hsle : skipWsIdx l start0 ≤ l.length := by omega
          have hcut := @fallbackCut_bounds l m base (skipWsIdx l start0) hsle
          have hprog := @fallbackCut_progress l m base (skipWsIdx l start0)
            hm (by omega)
          exact ih _ (by omega)

theorem fallbackLoop_noWs {l : List Char} {m : Nat} {base : String} :
    ∀ (fuel start0 : Nat) (cs : List Chunk),
      fallbackLoopF l m base fuel start0 = some cs →
      noWs (concatL (cs.map Chunk.chunk)) = noWs (l.drop start0) := by
  intro fuel
  induction fuel with
  | zero =>
    intro start0 cs h
    simp [fallbackLoopF] at h
  | succ fuel ih =>
    intro start0 cs h
    have hskip : noWs (l.drop start0) = noWs (l.drop (skipWsIdx l start0)) :=
      (noWs_drop_skipWsIdx l start0).symm
    rw [fallbackLoopF] at h
    dsimp only at h
    split at h
    · next hend =>
        cases h
        rw [hskip, List.drop_eq_nil_of_le (by omega)]
        rfl
    · split at h
      · -- tail branch
        next hlt hle =>
        cases h
        by_cases hseg : pyStrip (sliceL l (skipWsIdx l start0) l.length) = []
        · rw [if_pos hseg]
          have hnil : noWs (sliceL l (skipWsIdx l start0) l.length) = [] := by
            rw [← noWs_pyStrip, hseg]
            rfl
          rw [hskip, ← sliceL_from l (skipWsIdx l start0), hnil]
          rfl
        · rw [if_neg hseg, hskip, ← sliceL_from l (skipWsIdx l start0)]
          simp [concatL, noWs_pyStrip]
      · -- window branch
        next hlt hgt =>
        rw [Option.map_eq_some'] at h
        obtain ⟨rest, hrest, hcs⟩ := h
        have hsle : skipWsIdx l start0 ≤ l.length := by omega
        have hcut := @fallbackCut_bounds l m base (skipWsIdx l start0) hsle
        have hdecomp : l.drop (skipWsIdx l start0) =
            sliceL l (skipWsIdx l start0)
              (fallbackCut l m base (skipWsIdx l start0)).1 ++
            l.drop (fallbackCut l m base (skipWsIdx l start0)).1 := by
          rw [← sliceL_from l (skipWsIdx l start0),
            ← sliceL_from l (fallbackCut l m base (skipWsIdx l start0)).1,
            sliceL_append (by omega) (by omega)]
        have hrec := ih _ rest hrest
        rw [hskip, hdecomp, noWs_append]
        by_cases hseg : pyStrip (sliceL l (skipWsIdx l start0)
            (fallbackCut l m base (skipWsIdx l start0)).1) = []
        · rw [if_pos hseg] at hcs
          subst hcs
          have hsl : noWs (sliceL l (skipWsIdx l start0)
              (fallbackCut l m base (skipWsIdx l start0)).1) = [] := by
            rw [← noWs_pyStrip, hseg]
            rfl
          rw [hsl, hrec]
          rfl
        · rw [if_neg hseg] at hcs
          subst hcs
          rw [List.map_cons, concatL_cons, noWs_append, hrec, noWs_pyStrip]

/-- At `max_len = 0` the fallback loop makes no progress on `"a"`: the cut
point equals the current position, so no fuel suffices — the Python loop
runs forever. -/
theorem fallbackLoop_stuck_at_zero :
    ∀ fuel, fallbackLoopF ['a'] 0 "length_fallback" fuel 0 = none := by
  intro fuel
  induction fuel with
  | zero => rfl
  | succ fuel ih =>
    rw [fallbackLoopF]
    dsimp only
    rw [if_neg (by decide), if_neg (by decide)]
    have hcut : (fallbackCut ['a'] 0 "length_fallback" (skipWsIdx ['a'] 0)).1 = 0 := by
      decide
    rw [hcut, ih]
    rfl

theorem fallback_split_mem {l : List Char} {m : Nat} {base : String}
    {cs : List Chunk} (h : fallback_split_by_commas_and_conjs l m base = some cs) :
    ∀ c ∈ cs, c.chunk.length ≤ m ∧
      (c.rule = base ++ "+comma_split" ∨ c.rule = base ++ "+conj_split" ∨
        c.rule = base ++ "+length_limit" ∨ c.rule = base ++ "+tail") :=
  fallbackLoop_mem _ _ cs h

theorem fallback_split_isSome {l : List Char} {m : Nat} {base : String}
    (hm : 1 ≤ m) :
    (fallback_split_by_commas_and_conjs l m base).isSome = true :=
  fallbackLoop_isSome hm _ 0 (by omega)

theorem fallback_split_noWs {l : List Char} {m : Nat} {base : String}
    {cs : List Chunk} (h : fallback_split_by_commas_and_conjs l m base = some cs) :
    noWs (concatL (cs.map Chunk.chunk)) = noWs l := by
  have := fallbackLoop_noWs _ _ cs h
  simpa using this

/-! Lemmas about the Tier-2 subordinator splitter. -/

theorem concatL_consHead (pre : List Char) (res : List (List Char)) :
    concatL (consHead pre res) = pre ++ concatL res := by
  cases res with
  | nil => simp [consHead, concatL]
  | cons s ss => simp [consHead, concatL_cons, List.append_assoc]

theorem concatL_append (xs ys : List (List Char)) :
    concatL (xs ++ ys) = concatL xs ++ concatL ys := by
  induction xs with
  | nil => rfl
  | cons x xs ih => simp [concatL_cons, ih, List.append_assoc]

theorem positions_sorted (l : List Char) :
    (find_subordinator_positions l).Pairwise (· < ·) :=
  List.Pairwise.filter _ (List.pairwise_lt_range _)

theorem positions_lt {l : List Char} {x : Nat}
    (h : x ∈ find_subordinator_positions l) : x < l.length := by
  unfold find_subordinator_positions at h
  have := List.of_mem_filter h
  have hx := List.mem_filter.mp h
  exact List.mem_range.mp hx.1

theorem subLoop_eq_pairs {l : List Char} {m : Nat} (starts : List Nat) :
    ∀ i, subLoop l m starts i =
      pairsLoop l m ((starts.drop i).zip (starts.drop (i + 1) ++ [l.length])) := by
  intro i
  obtain ⟨k, hk⟩ : ∃ k, starts.length - i ≤ k := ⟨starts.length - i, Nat.le_refl _⟩
  induction k generalizing i with
  | zero =>
    rw [subLoop, dif_neg (by omega)]
    have hdrop : starts.drop i = [] := List.drop_eq_nil_of_le (by omega)
    rw [hdrop]
    rfl
  | succ k ih =>
  rw [subLoop]
  by_cases hi : i < starts.length
  · rw [dif_pos hi]
    have hdrop : starts.drop i = starts[i] :: starts.drop (i + 1) :=
      List.drop_eq_getElem_cons hi
    have hgd : starts.getD i 0 = starts[i] := by
      simp [List.getD_eq_getElem?_getD, List.getElem?_eq_getElem hi]
    by_cases hi1 : i + 1 < starts.length
    · have hdrop1 : starts.drop (i + 1) = starts[i + 1] :: starts.drop (i + 2) :=
        List.drop_eq_getElem_cons hi1
      have hgd1 : starts.getD (i + 1) 0 = starts[i + 1] := by
        simp [List.getD_eq_getElem?_getD, List.getElem?_eq_getElem hi1]
      rw [hdrop]
      conv_rhs => rw [hdrop1]
      rw [List.cons_append, List.zip_cons_cons, pairsLoop]
      have hrec := ih (i + 1) (by omega)
      rw [← hdrop1, ← hrec]
      simp only [hgd, hgd1, if_pos hi1]
    · have hlen : i + 1 = starts.length := by omega
      have hdrop1 : starts.drop (i + 1) = [] := by
        apply List.drop_eq_nil_of_le
        omega
      rw [hdrop, hdrop1, List.nil_append, List.zip_cons_cons, List.zip_nil_right,
        pairsLoop]
      have hrec : subLoop l m starts (i + 1) = some [] := by
        rw [subLoop, dif_neg (by omega)]
      rw [hgd]
      simp only [if_neg hi1]
      rw [hrec]
      rfl
  · rw [dif_neg hi]
    have hdrop : starts.drop i = [] := List.drop_eq_nil_of_le (by omega)
    rw [hdrop]
    rfl

theorem pairsLoop_mem {l : List Char} {m : Nat} :
    ∀ (ps : List (Nat × Nat)) (cs : List Chunk), pairsLoop l m ps = some cs →
      ∀ c ∈ cs, c.chunk.length ≤ m := by
  intro ps
  induction ps with
  | nil =>
    intro cs h c hc
    cases h
    simp at hc
  | cons p ps ih =>
    intro cs h c hc
    obtain ⟨a, b⟩ := p
    rw [pairsLoop] at h
    split at h
    · exact ih cs h c hc
    · split at h
      · next hne hle =>
          rw [Option.map_eq_some'] at h
          obtain ⟨rest, hrest, hcs⟩ := h
          subst hcs
          rcases List.mem_cons.mp hc with hc | hc
          · subst hc
            exact hle
          · exact ih rest hrest c hc
      · next hne hgt =>
          split at h
          · rename_i fb rest hfb hrest
            cases h
            rcases List.mem_append.mp hc with hc | hc
            · exact (fallback_split_mem hfb c hc).1
            · exact ih rest hrest c hc
          · simp at h

theorem pairsLoop_isSome {l : List Char} {m : Nat} (hm : 1 ≤ m) :
    ∀ ps : List (Nat × Nat), (pairsLoop l m ps).isSome = true := by
  intro ps
  induction ps with
  | nil => rfl
  | cons p ps ih =>
    obtain ⟨a, b⟩ := p
    rw [pairsLoop]
    split
    · exact ih
    · split
      · rw [Option.isSome_map']
        exact ih
      · obtain ⟨fb, hfb⟩ := Option.isSome_iff_exists.mp
          (@fallback_split_isSome (pyStrip (sliceL l a b)) m
            "clause_subordinator" hm)
        obtain ⟨rest, hrest⟩ := Option.isSome_iff_exists.mp ih
        rw [hfb, hrest]
        rfl

theorem pairsLoop_noWs {l : List Char} {m : Nat} :
    ∀ (bs : List Nat) (b0 : Nat) (cs : List Chunk),
      List.Chain' (· ≤ ·) (b0 :: bs) → (∀ x ∈ b0 :: bs, x ≤ l.length) →
      pairsLoop l m ((b0 :: bs).zip (bs ++ [l.length])) = some cs →
      noWs (concatL (cs.map Chunk.chunk)) = noWs (l.drop b0) := by
  intro bs
  induction bs with
  | nil =>
    intro b0 cs hchain hmem h
    rw [List.nil_append, List.zip_cons_cons, List.zip_nil_right, pairsLoop] at h
    rw [sliceL_from] at h
    split at h
    · next hnil =>
        cases h
        rw [pyStrip_nil_noWs hnil]
        rfl
    · split at h
      · rw [Option.map_eq_some'] at h
        obtain ⟨rest, hrest, hcs⟩ := h
        rw [pairsLoop] at hrest
        cases hrest
        subst hcs
        simp [concatL, noWs_pyStrip]
      · split at h
        · rename_i fb rest hfb hrest
          rw [pairsLoop] at hrest
          cases hrest
          cases h
          have hw := fallback_split_noWs hfb
          rw [List.append_nil, hw, noWs_pyStrip]
        · simp at h
  | cons b1 bs ih =>
    intro b0 cs hchain hmem h
    rw [List.cons_append, List.zip_cons_cons, pairsLoop] at h
    have hb01 : b0 ≤ b1 := (List.chain'_cons.mp hchain).1
    have hb1len : b1 ≤ l.length := hmem b1 (by simp)
    have hdecomp : l.drop b0 = sliceL l b0 b1 ++ l.drop b1 := by
      rw [← sliceL_from l b0, ← sliceL_from l b1,
        sliceL_append hb01 (by omega)]
    have hchain1 : List.Chain' (· ≤ ·) (b1 :: bs) := (List.chain'_cons.mp hchain).2
    have hmem1 : ∀ x ∈ b1 :: bs, x ≤ l.length := by
      intro x hx
      exact hmem x (by simp [hx])
    split at h
    · next hnil =>
        have hrec := ih b1 cs hchain1 hmem1 h
        rw [hrec, hdecomp, noWs_append]
        have : noWs (sliceL l b0 b1) = [] := by
          rw [← noWs_pyStrip, hnil]
          rfl
        rw [this]
        rfl
    · split at h
      · rw [Option.map_eq_some'] at h
        obtain ⟨rest, hrest, hcs⟩ := h
        subst hcs
        have hrec := ih b1 rest hchain1 hmem1 hrest
        rw [List.map_cons, concatL_cons, noWs_append, hrec, hdecomp,
          noWs_append, noWs_pyStrip]
      · split at h
        · rename_i fb rest hfb hrest
          cases h
          have hrec := ih b1 rest hchain1 hmem1 hrest
          have hfbw := fallback_split_noWs hfb
          rw [List.map_append, concatL_append, noWs_append, hfbw, hrec,
            noWs_pyStrip, hdecomp, noWs_append]
        · simp at h

theorem split_by_subordinators_eq_spec (l : List Char) (m : Nat) :
    split_by_subordinators l m = subSplitSpec l m := by
  unfold split_by_subordinators subSplitSpec
  cases h : find_subordinator_positions l with
  | nil => rfl
  | cons s0 rest =>
    dsimp only
    by_cases hs0 : s0 = 0
    · rw [if_neg (by simp [hs0]), if_pos hs0,
        @subLoop_eq_pairs l m (s0 :: rest) 0]
      simp only [List.drop_zero]
    · rw [if_pos hs0, if_neg hs0,
        @subLoop_eq_pairs l m (0 :: s0 :: rest) 0]
      simp only [List.drop_zero]

theorem split_by_subordinators_mem {l : List Char} {m : Nat} {cs : List Chunk}
    (h : split_by_subordinators l m = some cs) :
    ∀ c ∈ cs, c.chunk.length ≤ m := by
  unfold split_by_subordinators at h
  cases hp : find_subordinator_positions l with
  | nil =>
    rw [hp] at h
    exact fun c hc => (fallback_split_mem h c hc).1
  | cons s0 rest =>
    rw [hp] at h
    dsimp only at h
    rw [subLoop_eq_pairs] at h
    exact pairsLoop_mem _ cs h

theorem split_by_subordinators_isSome {l : List Char} {m : Nat} (hm : 1 ≤ m) :
    (split_by_subordinators l m).isSome = true := by
  unfold split_by_subordinators
  cases hp : find_subordinator_positions l with
  | nil => exact fallback_split_isSome hm
  | cons s0 rest =>
    dsimp only
    rw [subLoop_eq_pairs]
    exact pairsLoop_isSome hm _

theorem split_by_subordinators_noWs {l : List Char} {m : Nat} {cs : List Chunk}
    (h : split_by_subordinators l m = some cs) :
    noWs (concatL (cs.map Chunk.chunk)) = noWs l := by
  unfold split_by_subordinators at h
  cases hp : find_subordinator_positions l with
  | nil =>
    rw [hp] at h
    exact fallback_split_noWs h
  | cons s0 rest =>
    rw [hp] at h
    dsimp only at h
    rw [subLoop_eq_pairs] at h
    have hsort : (s0 :: rest).Pairwise (· < ·) := by
      rw [← hp]
      exact positions_sorted l
    have hltlen : ∀ x ∈ s0 :: rest, x < l.length := by
      intro x hx
      rw [← hp] at hx
      exact positions_lt hx
    by_cases hs0 : s0 = 0
    · rw [if_neg (by simp [hs0])] at h
      subst hs0
      simp only [List.drop_zero, List.drop_succ_cons] at h
      have hchain : List.Chain' (· ≤ ·) ((0 : Nat) :: rest) :=
        (hsort.imp (fun hab => Nat.le_of_lt hab)).chain'
      have hmem : ∀ x ∈ (0 : Nat) :: rest, x ≤ l.length :=
        fun x hx => Nat.le_of_lt (hltlen x hx)
      have hres := pairsLoop_noWs rest 0 cs hchain hmem h
      rw [hres, List.drop_zero]
    · rw [if_pos hs0] at h
      simp only [List.drop_zero, List.drop_succ_cons] at h
      have hall : ∀ x ∈ s0 :: rest, 0 < x := by
        intro x hx
        rcases List.mem_cons.mp hx with hx | hx
        · subst hx
          exact Nat.pos_of_ne_zero hs0
        · have := (List.pairwise_cons.mp hsort).1 x hx
          omega
      have hsort0 : ((0 : Nat) :: s0 :: rest).Pairwise (· < ·) :=
        List.pairwise_cons.mpr ⟨hall, hsort⟩
      have hchain : List.Chain' (· ≤ ·) ((0 : Nat) :: s0 :: rest) :=
        (hsort0.imp (fun hab => Nat.le_of_lt hab)).chain'
      have hmem : ∀ x ∈ (0 : Nat) :: s0 :: rest, x ≤ l.length := by
        intro x hx
        rcases List.mem_cons.mp hx with hx | hx
        · subst hx
          exact Nat.zero_le _
        · exact Nat.le_of_lt (hltlen x hx)
      have hres := pairsLoop_noWs (s0 :: rest) 0 cs hchain hmem h
      rw [hres, List.drop_zero]

/-! Lemmas about `split_long_sentence` and the sentence/paragraph drivers. -/

theorem concat_commaRaw (l : List Char) : concatL (commaRaw l) = l := by
  induction l with
  | nil => rfl
  | cons c rest ih =>
    rw [commaRaw]
    by_cases hc : c = ','
    · rw [if_pos hc, concatL_cons, ih]
      subst hc
      rfl
    · rw [if_neg hc, concatL_consHead, ih]
      rfl

theorem noWs_strip_filter (segs : List (List Char)) :
    noWs (concatL ((segs.map pyStrip).filter (· ≠ []))) = noWs (concatL segs) := by
  induction segs with
  | nil => rfl
  | cons s ss ih =>
    rw [List.map_cons, List.filter_cons]
    by_cases hs : pyStrip s = []
    · rw [if_neg (by simp [hs])]
      rw [concatL_cons, noWs_append, pyStrip_nil_noWs hs, ih]
      rfl
    · rw [if_pos (by simp [hs])]
      rw [concatL_cons, concatL_cons, noWs_append, noWs_append, noWs_pyStrip, ih]

theorem commaSegLoop_mem {m : Nat} :
    ∀ (segs : List (List Char)) (cs : List Chunk),
      commaSegLoop m segs = some cs → ∀ c ∈ cs, c.chunk.length ≤ m := by
  intro segs
  induction segs with
  | nil =>
    intro cs h c hc
    cases h
    simp at hc
  | cons seg segs ih =>
    intro cs h c hc
    rw [commaSegLoop] at h
    split at h
    · next hle =>
        rw [Option.map_eq_some'] at h
        obtain ⟨rest, hrest, hcs⟩ := h
        subst hcs
        rcases List.mem_cons.mp hc with hc | hc
        · subst hc
          exact hle
        · exact ih rest hrest c hc
    · split at h
      · rename_i sub rest hsub hrest
        cases h
        rcases List.mem_append.mp hc with hc | hc
        · exact split_by_subordinators_mem hsub c hc
        · exact ih rest hrest c hc
      · simp at h

theorem commaSegLoop_isSome {m : Nat} (hm : 1 ≤ m) :
    ∀ segs : List (List Char), (commaSegLoop m segs).isSome = true := by
  intro segs
  induction segs with
  | nil => rfl
  | cons seg segs ih =>
    rw [commaSegLoop]
    split
    · rw [Option.isSome_map']
      exact ih
    · obtain ⟨sub, hsub⟩ := Option.isSome_iff_exists.mp
        (@split_by_subordinators_isSome seg m hm)
      obtain ⟨rest, hrest⟩ := Option.isSome_iff_exists.mp ih
      rw [hsub, hrest]
      rfl

theorem commaSegLoop_noWs {m : Nat} :
    ∀ (segs : List (List Char)) (cs : List Chunk),
      commaSegLoop m segs = some cs →
      noWs (concatL (cs.map Chunk.chunk)) = noWs (concatL segs) := by
  intro segs
  induction segs with
  | nil =>
    intro cs h
    cases h
    rfl
  | cons seg segs ih =>
    intro cs h
    rw [commaSegLoop] at h
    split at h
    · rw [Option.map_eq_some'] at h
      obtain ⟨rest, hrest, hcs⟩ := h
      subst hcs
      rw [List.map_cons, concatL_cons, concatL_cons, noWs_append, noWs_append,
        ih rest hrest]
    · split at h
      · rename_i sub rest hsub hrest
        cases h
        rw [List.map_append, concatL_append, concatL_cons, noWs_append,
          noWs_append, split_by_subordinators_noWs hsub, ih rest hrest]
      · simp at h

theorem split_long_sentence_mem {l : List Char} {m : Nat} {cs : List Chunk}
    (h : split_long_sentence l m = some cs) :
    ∀ c ∈ cs, c.chunk.length ≤ m := by
  unfold split_long_sentence at h
  split at h
  · exact commaSegLoop_mem _ cs h
  · exact split_by_subordinators_mem h

theorem split_long_sentence_isSome {l : List Char} {m : Nat} (hm : 1 ≤ m) :
    (split_long_sentence l m).isSome = true := by
  unfold split_long_sentence
  split
  · exact commaSegLoop_isSome hm _
  · exact split_by_subordinators_isSome hm

theorem split_long_sentence_noWs {l : List Char} {m : Nat} {cs : List Chunk}
    (h : split_long_sentence l m = some cs) :
    noWs (concatL (cs.map Chunk.chunk)) = noWs l := by
  unfold split_long_sentence at h
  split at h
  · rw [commaSegLoop_noWs _ cs h, noWs_strip_filter, concat_commaRaw]
  · exact split_by_subordinators_noWs h

theorem processSentence_mem {s : List Char} {m : Nat} {cs : List Chunk}
    (h : processSentence s m = some cs) :
    ∀ c ∈ cs, c.chunk.length ≤ m := by
  unfold processSentence at h
  dsimp only at h
  split at h
  · cases h
    simp
  · split at h
    · next hne hle =>
        cases h
        intro c hc
        simp at hc
        subst hc
        exact hle
    · exact split_long_sentence_mem h

theorem processSentence_isSome {s : List Char} {m : Nat} (hm : 1 ≤ m) :
    (processSentence s m).isSome = true := by
  unfold processSentence
  dsimp only
  split
  · rfl
  · split
    · rfl
    · exact split_long_sentence_isSome hm

theorem processSentence_noWs {s : List Char} {m : Nat} {cs : List Chunk}
    (h : processSentence s m = some cs) :
    noWs (concatL (cs.map Chunk.chunk)) = noWs s := by
  unfold processSentence at h
  dsimp only at h
  split at h
  · next hnil =>
      cases h
      rw [pyStrip_nil_noWs hnil]
      rfl
  · split at h
    · cases h
      simp [concatL, noWs_pyStrip]
    · rw [split_long_sentence_noWs h, noWs_pyStrip]

theorem concatMapO_mem {f : List Char → Option (List Chunk)} {P : Chunk → Prop}
    (hf : ∀ x cs', f x = some cs' → ∀ c ∈ cs', P c) :
    ∀ (xs : List (List Char)) (cs : List Chunk),
      concatMapO f xs = some cs → ∀ c ∈ cs, P c := by
  intro xs
  induction xs with
  | nil =>
    intro cs h c hc
    cases h
    simp at hc
  | cons x xs ih =>
    intro cs h c hc
    rw [concatMapO] at h
    split at h
    · rename_i a b ha hb
      cases h
      rcases List.mem_append.mp hc with hc | hc
      · exact hf x a ha c hc
      · exact ih b hb c hc
    · simp at h

theorem concatMapO_isSome {f : List Char → Option (List Chunk)}
    (hf : ∀ x, (f x).isSome = true) :
    ∀ xs : List (List Char), (concatMapO f xs).isSome = true := by
  intro xs
  induction xs with
  | nil => rfl
  | cons x xs ih =>
    rw [concatMapO]
    obtain ⟨a, ha⟩ := Option.isSome_iff_exists.mp (hf x)
    obtain ⟨b, hb⟩ := Option.isSome_iff_exists.mp ih
    rw [ha, hb]
    rfl

theorem concatMapO_noWs {f : List Char → Option (List Chunk)}
    (hf : ∀ x cs', f x = some cs' →
      noWs (concatL (cs'.map Chunk.chunk)) = noWs x) :
    ∀ (xs : List (List Char)) (cs : List Chunk),
      concatMapO f xs = some cs →
      noWs (concatL (cs.map Chunk.chunk)) = noWs (concatL xs) := by
  intro xs
  induction xs with
  | nil =>
    intro cs h
    cases h
    rfl
  | cons x xs ih =>
    intro cs h
    rw [concatMapO] at h
    split at h
    · rename_i a b ha hb
      cases h
      rw [List.map_append, concatL_append, concatL_cons, noWs_append,
        noWs_append, hf x a ha, ih b hb]
    · simp at h

theorem noWs_collapseWsAux : ∀ (l : List Char) (b : Bool),
    noWs (collapseWsAux b l) = noWs l := by
  intro l
  induction l with
  | nil => intro b; rfl
  | cons c rest ih =>
    intro b
    rw [collapseWsAux]
    by_cases hc : pyIsSpace c = true
    · rw [if_pos hc]
      cases b with
      | true =>
        rw [if_pos rfl, ih, noWs_cons_ws hc]
      | false =>
        rw [if_neg (by simp), noWs_cons_ws (by rfl), ih, noWs_cons_ws hc]
    · rw [if_neg hc, noWs_cons_not_ws (by simpa using hc),
        noWs_cons_not_ws (by simpa using hc), ih]

theorem noWs_collapseWs (l : List Char) : noWs (collapseWs l) = noWs l :=
  noWs_collapseWsAux l false

theorem sentAux_noWs : ∀ (l : List Char) (sk : Bool) (pr : Char),
    noWs (concatL (sentAux sk pr l)) = noWs l := by
  intro l
  induction l with
  | nil => intro sk pr; rfl
  | cons c rest ih =>
    intro sk pr
    rw [sentAux]
    by_cases h1 : sk && pyIsSpace c
    · rw [if_pos h1, ih]
      have hc : pyIsSpace c = true := by
        cases sk with
        | true => simpa using h1
        | false => simp at h1
      rw [noWs_cons_ws hc]
    · rw [if_neg h1]
      by_cases h2 : pyIsSpace c && isTermPunct pr
      · rw [if_pos h2, concatL_cons, noWs_append, ih]
        have hc : pyIsSpace c = true := by
          cases hx : pyIsSpace c with
          | true => rfl
          | false => simp [hx] at h2
        rw [noWs_cons_ws hc]
        rfl
      · rw [if_neg h2, concatL_consHead, noWs_append, ih]
        by_cases hc : pyIsSpace c = true
        · cases hx : isTermPunct pr with
          | true => simp [hc, hx] at h2
          | false =>
            rw [noWs_cons_ws hc, noWs_cons_ws hc]
            rfl
        · rw [noWs_cons_not_ws (by simpa using hc),
            noWs_cons_not_ws (by simpa using hc)]
          rfl

theorem split_into_sentences_noWs (p : List Char) :
    noWs (concatL (split_into_sentences p)) = noWs p := by
  unfold split_into_sentences
  dsimp only
  have hp : noWs (collapseWs (pyStrip p)) = noWs p := by
    rw [noWs_collapseWs, noWs_pyStrip]
  split
  · next hnil =>
      rw [← hp, hnil]
      rfl
  · split
    · rw [concatL_cons, noWs_append, ← hp]
      simp [concatL, noWs]
    · rw [noWs_strip_filter, sentAux_noWs, hp]

theorem noWs_singleton_append (c : Char) (rest : List Char) :
    noWs [c] ++ noWs rest = noWs (c :: rest) := by
  rw [← noWs_append]
  rfl

theorem paraAux_noWs : ∀ (l : List Char) (st : PState), pInv st →
    noWs (concatL (paraAux st l)) = noWs l := by
  intro l
  induction l with
  | nil =>
    intro st hst
    cases st with
    | norm => rfl
    | run pend bRev two =>
      obtain ⟨hpend, hbrev⟩ := hst
      have hb : noWs bRev.reverse = [] := by
        rw [noWs_reverse, noWs_of_all_ws hbrev]
        rfl
      have hp : noWs pend.reverse = [] := by
        rw [noWs_reverse, noWs_of_all_ws hpend]
        rfl
      rw [paraAux]
      cases two with
      | true =>
        rw [if_pos rfl]
        have hcc : concatL [([] : List Char), bRev.reverse] = bRev.reverse := by
          simp [concatL]
        rw [hcc, hb]
        rfl
      | false =>
        rw [if_neg (by simp)]
        have hcc : concatL [pend.reverse] = pend.reverse := by
          simp [concatL]
        rw [hcc, hp]
        rfl
  | cons c rest ih =>
    intro st hst
    cases st with
    | norm =>
      rw [paraAux]
      by_cases hc : c = '\n'
      · rw [if_pos hc,
          ih (PState.run [c] [] false) (by subst hc; exact ⟨by simp [pyIsSpace], by simp⟩)]
        subst hc
        rw [noWs_cons_ws (by rfl)]
      · rw [if_neg hc, concatL_consHead, noWs_append, ih PState.norm trivial,
          noWs_singleton_append]
    | run pend bRev two =>
      obtain ⟨hpend, hbrev⟩ := hst
      rw [paraAux]
      by_cases hc : c = '\n'
      · rw [if_pos hc]
        have hinv : pInv (PState.run (c :: pend) [] true) := by
          refine ⟨?_, by simp⟩
          intro d hd
          rcases List.mem_cons.mp hd with hd | hd
          · subst hd hc
            rfl
          · exact hpend d hd
        rw [ih (PState.run (c :: pend) [] true) hinv]
        subst hc
        rw [noWs_cons_ws (by rfl)]
      · rw [if_neg hc]
        by_cases hws : pyIsSpace c = true
        · rw [if_pos hws]
          have hinv : pInv (PState.run (c :: pend) (c :: bRev) two) := by
            constructor
            · intro d hd
              rcases List.mem_cons.mp hd with hd | hd
              · subst hd
                exact hws
              · exact hpend d hd
            · intro d hd
              rcases List.mem_cons.mp hd with hd | hd
              · subst hd
                exact hws
              · exact hbrev d hd
          rw [ih (PState.run (c :: pend) (c :: bRev) two) hinv, noWs_cons_ws hws]
        · rw [if_neg hws]
          have hbnil : noWs bRev.reverse = [] := by
            rw [noWs_reverse, noWs_of_all_ws hbrev]
            rfl
          have hpnil : noWs pend.reverse = [] := by
            rw [noWs_reverse, noWs_of_all_ws hpend]
            rfl
          cases two with
          | true =>
            rw [if_pos rfl, concatL_cons, concatL_consHead, List.nil_append,
              List.append_assoc, noWs_append, noWs_append, hbnil,
              ih PState.norm trivial, List.nil_append, noWs_singleton_append]
          | false =>
            rw [if_neg (by simp), concatL_consHead, List.append_assoc,
              noWs_append, noWs_append, hpnil, ih PState.norm trivial,
              List.nil_append, noWs_singleton_append]

theorem split_into_paragraphs_noWs (t : List Char) :
    noWs (concatL (split_into_paragraphs t)) = noWs t := by
  unfold split_into_paragraphs
  dsimp only
  split
  · next hnil =>
      rw [← noWs_pyStrip t, hnil]
      rfl
  · rw [noWs_strip_filter, paraAux_noWs _ PState.norm trivial, noWs_pyStrip]

theorem finalFormat_mem : ∀ (raw : List Chunk) (c : ChunkRec),
    c ∈ finalFormat raw → ∃ r ∈ raw, c.chunk = pyStrip r.chunk ∧
      c.rule = r.rule ∧ c.length = c.chunk.length ∧ c.chunk ≠ [] := by
  intro raw
  induction raw with
  | nil =>
    intro c hc
    simp [finalFormat] at hc
  | cons r rs ih =>
    intro c hc
    rw [finalFormat] at hc
    split at hc
    · obtain ⟨r', hr', hprop⟩ := ih c hc
      exact ⟨r', by simp [hr'], hprop⟩
    · next hne =>
        rcases List.mem_cons.mp hc with hc | hc
        · subst hc
          exact ⟨r, by simp, rfl, rfl, rfl, hne⟩
        · obtain ⟨r', hr', hprop⟩ := ih c hc
          exact ⟨r', by simp [hr'], hprop⟩

theorem finalFormat_noWs : ∀ raw : List Chunk,
    noWs (concatL ((finalFormat raw).map ChunkRec.chunk)) =
      noWs (concatL (raw.map Chunk.chunk)) := by
  intro raw
  induction raw with
  | nil => rfl
  | cons r rs ih =>
    rw [finalFormat]
    split
    · next hnil =>
        rw [ih, List.map_cons, concatL_cons, noWs_append, pyStrip_nil_noWs hnil]
        rfl
    · rw [List.map_cons, List.map_cons, concatL_cons, concatL_cons, noWs_append,
        noWs_append, noWs_pyStrip, ih]

theorem process_paragraph_mem {p : List Char} {m : Nat} {cs : List Chunk}
    (h : process_paragraph p m = some cs) :
    ∀ c ∈ cs, c.chunk.length ≤ m :=
  concatMapO_mem (fun _ _ hx => processSentence_mem hx) _ cs h

theorem process_paragraph_isSome {p : List Char} {m : Nat} (hm : 1 ≤ m) :
    (process_paragraph p m).isSome = true :=
  concatMapO_isSome (fun _ => processSentence_isSome hm) _

theorem process_paragraph_noWs {p : List Char} {m : Nat} {cs : List Chunk}
    (h : process_paragraph p m = some cs) :
    noWs (concatL (cs.map Chunk.chunk)) = noWs p := by
  have := concatMapO_noWs (fun _ _ hx => processSentence_noWs hx) _ cs h
  rw [this, split_into_sentences_noWs]

theorem chunkTextL_isSome {l : List Char} {m : Nat} (hm : 1 ≤ m) :
    (chunkTextL l m).isSome = true := by
  unfold chunkTextL
  rw [Option.isSome_map']
  exact concatMapO_isSome (fun _ => process_paragraph_isSome hm) _

theorem chunkTextL_mem {l : List Char} {m : Nat} {cs : List ChunkRec}
    (h : chunkTextL l m = some cs) :
    ∀ c ∈ cs, c.length ≤ m ∧ c.length = c.chunk.length ∧
      pyStrip c.chunk = c.chunk ∧ c.chunk ≠ [] := by
  unfold chunkTextL at h
  rw [Option.map_eq_some'] at h
  obtain ⟨raw, hraw, hcs⟩ := h
  subst hcs
  intro c hc
  obtain ⟨r, hr, hchunk, _, hlen, hne⟩ := finalFormat_mem raw c hc
  have hrle : r.chunk.length ≤ m :=
    concatMapO_mem (fun _ _ hx => process_paragraph_mem hx) _ raw hraw r hr
  have hstrip : pyStrip c.chunk = c.chunk := by
    rw [hchunk, pyStrip_idem]
  refine ⟨?_, hlen, hstrip, hne⟩
  rw [hlen, hchunk]
  calc (pyStrip r.chunk).length ≤ r.chunk.length := pyStrip_length_le _
    _ ≤ m := hrle

theorem chunkTextL_noWs {l : List Char} {m : Nat} {cs : List ChunkRec}
    (h : chunkTextL l m = some cs) :
    noWs (concatL (cs.map ChunkRec.chunk)) = noWs (normalize_for_tts l) := by
  unfold chunkTextL at h
  rw [Option.map_eq_some'] at h
  obtain ⟨raw, hraw, hcs⟩ := h
  subst hcs
  rw [finalFormat_noWs,
    concatMapO_noWs (fun _ _ hx => process_paragraph_noWs hx) _ raw hraw,
    split_into_paragraphs_noWs]

/-!
Machinery for the double-comma question: after the `",\s*" -> ", "` pass,
every comma in the string is immediately followed by a space; the
whitespace-collapsing pass and the final strip preserve the absence of an
adjacent `",,"`.
-/

theorem commaSpace_cons {out : List Char} {c : Char}
    (hP : ∀ pre post, out = pre ++ ',' :: post → post.head? = some ' ')
    (hc : c ≠ ',') :
    ∀ pre post, c :: out = pre ++ ',' :: post → post.head? = some ' ' := by
  intro pre post h
  cases pre with
  | nil =>
    simp at h
    exact absurd h.1 hc
  | cons x pre2 =>
    simp at h
    exact hP pre2 post h.2

theorem commaSpace_tail {out : List Char} {c : Char}
    (hP : ∀ pre post, c :: out = pre ++ ',' :: post → post.head? = some ' ') :
    ∀ pre post, out = pre ++ ',' :: post → post.head? = some ' ' :=
  fun pre post h => hP (c :: pre) post (by rw [h]; rfl)

theorem commaSpace_comma {out : List Char}
    (hP : ∀ pre post, out = pre ++ ',' :: post → post.head? = some ' ') :
    ∀ pre post, ',' :: ' ' :: out = pre ++ ',' :: post →
      post.head? = some ' ' := by
  intro pre post h
  cases pre with
  | nil =>
    simp at h
    rw [← h]
    rfl
  | cons x pre2 =>
    have h2 : ' ' :: out = pre2 ++ ',' :: post := by
      have := (List.cons_eq_cons.mp h).2
      simpa using this
    exact commaSpace_cons hP (by decide) pre2 post h2

theorem subCommaWsAux_commaSpace : ∀ (l : List Char) (sk : Bool)
    (pre post : List Char), subCommaWsAux sk l = pre ++ ',' :: post →
    post.head? = some ' ' := by
  intro l
  induction l with
  | nil =>
    intro sk pre post h
    rw [subCommaWsAux] at h
    exact absurd h (by simp)
  | cons c rest ih =>
    intro sk pre post h
    rw [subCommaWsAux] at h
    by_cases h1 : sk && pyIsSpace c
    · rw [if_pos h1] at h
      exact ih true pre post h
    · rw [if_neg h1] at h
      by_cases h2 : c = ','
      · rw [if_pos (by simp [h2])] at h
        exact commaSpace_comma (fun p q hq => ih true p q hq) pre post h
      · rw [if_neg (by simp [h2])] at h
        exact commaSpace_cons (fun p q hq => ih false p q hq) h2 pre post h

theorem collapseWsAux_commaSpace : ∀ (x : List Char) (b : Bool),
    (∀ pre post, x = pre ++ ',' :: post → post.head? = some ' ') →
    ∀ pre post, collapseWsAux b x = pre ++ ',' :: post →
      post.head? = some ' ' := by
  intro x
  induction x with
  | nil =>
    intro b hP pre post h
    rw [collapseWsAux] at h
    exact absurd h (by simp)
  | cons c rest ih =>
    intro b hP pre post h
    have hPrest : ∀ pre post, rest = pre ++ ',' :: post → post.head? = some ' ' :=
      commaSpace_tail hP
    rw [collapseWsAux] at h
    by_cases hws : pyIsSpace c = true
    · rw [if_pos hws] at h
      have hcns : c ≠ ',' := by
        intro hcc
        subst hcc
        simp [pyIsSpace] at hws
      cases b with
      | true =>
        rw [if_pos rfl] at h
        exact ih true hPrest pre post h
      | false =>
        rw [if_neg (by simp)] at h
        exact commaSpace_cons (fun p q hq => ih true hPrest p q hq)
          (by decide) pre post h
    · rw [if_neg hws] at h
      by_cases hc : c = ','
      · subst hc
        have hrest : rest.head? = some ' ' := hP [] rest rfl
        cases rest with
        | nil => simp at hrest
        | cons r rest2 =>
          simp at hrest
          subst hrest
          cases pre with
          | nil =>
            simp at h
            rw [← h]
            rw [collapseWsAux, if_pos (by decide), if_neg (by simp)]
            rfl
          | cons y pre2 =>
            simp at h
            exact ih false (commaSpace_tail hP) pre2 post h.2
      · exact commaSpace_cons (fun p q hq => ih false hPrest p q hq) hc pre post h

theorem commaSpace_no_double {out : List Char}
    (hP : ∀ pre post, out = pre ++ ',' :: post → post.head? = some ' ') :
    ¬ [',', ','] <:+: out := by
  intro hinf
  obtain ⟨s, t, hst⟩ := hinf
  have := hP s (',' :: t) (by rw [← hst]; simp)
  simp at this

/-- No output of `normalize_for_tts` contains two adjacent commas: the
`",\s*" -> ", "` pass puts a space after every comma, whitespace collapsing
keeps one, and the final strip removes only edge whitespace. -/
theorem normalize_no_adjacent_commas (l : List Char) :
    ¬ [',', ','] <:+: normalize_for_tts l := by
  intro hinf
  unfold normalize_for_tts at hinf
  have h2 : [',', ','] <:+:
      collapseWs (subCommaWs (subWsComma (residualPass (discoursePass (asidePass l))))) :=
    hinf.trans (pyStrip_within _)
  exact commaSpace_no_double
    (collapseWsAux_commaSpace _ false
      (fun p q hq => subCommaWsAux_commaSpace _ false p q hq)) h2

/-! Characterization of the aside pass (pass 1 of the normalizer). -/

theorem asideAux_no_dash : ∀ (pre rest : List Char),
    (∀ c ∈ pre, isDashLike c = false) →
    asideAux none (pre ++ rest) = pre ++ asideAux none rest := by
  intro pre
  induction pre with
  | nil => intro rest _; rfl
  | cons c pre2 ih =>
    intro rest hpre
    rw [List.cons_append, asideAux,
      if_neg (by simp [hpre c (by simp)]), ih rest (fun d hd => hpre d (by simp [hd]))]
    rfl

theorem asideAux_inner : ∀ (inner : List Char) (d0 : Char)
    (innerRev : List Char) (d2 : Char) (post : List Char),
    (∀ c ∈ inner, isDashLike c = false ∧ c ≠ '\n') →
    isDashLike d2 = true →
    asideAux (some (d0, innerRev)) (inner ++ d2 :: post) =
      (if (pyStrip (innerRev.reverse ++ inner)).contains ' ' then
        ", ".toList ++ pyStrip (innerRev.reverse ++ inner) ++ ", ".toList
      else d0 :: (innerRev.reverse ++ inner) ++ [d2]) ++ asideAux none post := by
  intro inner
  induction inner with
  | nil =>
    intro d0 innerRev d2 post _ hd2
    rw [List.nil_append, asideAux, if_pos hd2]
    simp
  | cons c inner2 ih =>
    intro d0 innerRev d2 post hinner hd2
    obtain ⟨hcd, hcn⟩ := hinner c (by simp)
    rw [List.cons_append, asideAux, if_neg (by simp [hcd]),
      if_neg (by simp [hcn]),
      ih d0 (c :: innerRev) d2 post (fun d hd => hinner d (by simp [hd])) hd2]
    have : (c :: innerRev).reverse ++ inner2 = innerRev.reverse ++ (c :: inner2) := by
      simp
    rw [this]

/-- One dash-flanked-by-alphanumerics step of the residual pass: the dash
is kept as a hyphen regardless of the accumulated output. -/
theorem residAux_alnum_dash (out : List Char) (prev d b : Char)
    (rest : List Char) (hprev : pyIsAlnum prev = true)
    (hb : pyIsAlnum b = true) (hd : isDashLike d = true) :
    residAux out prev (d :: b :: rest) = residAux ('-' :: out) d (b :: rest) := by
  rw [residAux]
  rw [if_pos hd, if_pos (show (pyIsAlnum prev && pyIsAlnum b) = true by
    rw [hprev, hb]
    rfl)]

/-! Glue lemmas for the cut-point characterization (claim C3). -/

theorem sliceL_get? {l : List Char} {a b k : Nat} (h : a + k < b) :
    (sliceL l a b).get? k = l.get? (a + k) := by
  unfold sliceL
  rw [List.get?_drop]
  exact List.get?_take (by omega)

theorem strFind_of_least {l : List Char} {a b i : Nat}
    (h1 : a ≤ i) (h2 : i < b) (hc : l.get? i = some ',')
    (hleast : ∀ j, a ≤ j → j < i → l.get? j ≠ some ',') :
    strFind l ',' a b = some i := by
  unfold strFind
  have hfind : findFromL ',' (sliceL l a b) = some (i - a) := by
    apply findFromL_of_spec
    · rw [sliceL_get? (by omega), Nat.add_sub_cancel' h1]
      exact hc
    · intro j hj
      rw [sliceL_get? (by omega)]
      exact hleast (a + j) (by omega) (by omega)
  rw [hfind]
  simp
  omega

theorem strFind_none_of {l : List Char} {a b : Nat}
    (h : ∀ j, a ≤ j → j < b → l.get? j ≠ some ',') :
    strFind l ',' a b = none := by
  unfold strFind
  rw [findFromL_none_of]
  · rfl
  · intro j
    by_cases hj : a + j < b
    · rw [sliceL_get? hj]
      exact h (a + j) (by omega) hj
    · rw [List.get?_eq_none.mpr]
      · simp
      · have := sliceL_length_le l a b
        omega

/-!
The claims.
-/

/-- Claim C1: for every input text, every `max_len >= 1` and every base
rule, whenever the Tier-3 fallback splitter
(`fallback_split_by_commas_and_conjs`) returns, every fragment it emits —
its rule carrying suffix `+comma_split`, `+conj_split`, `+length_limit` or
`+tail`, the final `+tail` fragment included — has trimmed text of length
at most `max_len`. -/
theorem claim_C1 (l : List Char) (m : Nat) (base : String) (hm : 1 ≤ m)
    (cs : List Chunk)
    (h : fallback_split_by_commas_and_conjs l m base = some cs) :
    ∀ c ∈ cs, c.chunk.length ≤ m ∧
      (c.rule = base ++ "+comma_split" ∨ c.rule = base ++ "+conj_split" ∨
        c.rule = base ++ "+length_limit" ∨ c.rule = base ++ "+tail") :=
  fallback_split_mem h

/-- Witness for C1 at a concrete input. -/
theorem claim_C1_witness :
    (⟨"ab,".toList, "length_fallback+comma_split"⟩ : Chunk).chunk.length ≤ 3 ∧
      ((⟨"ab,".toList, "length_fallback+comma_split"⟩ : Chunk).rule =
          "length_fallback" ++ "+comma_split" ∨
        (⟨"ab,".toList, "length_fallback+comma_split"⟩ : Chunk).rule =
          "length_fallback" ++ "+conj_split" ∨
        (⟨"ab,".toList, "length_fallback+comma_split"⟩ : Chunk).rule =
          "length_fallback" ++ "+length_limit" ∨
        (⟨"ab,".toList, "length_fallback+comma_split"⟩ : Chunk).rule =
          "length_fallback" ++ "+tail") :=
  claim_C1 "ab,cd".toList 3 "length_fallback" (by decide)
    [⟨"ab,".toList, "length_fallback+comma_split"⟩,
     ⟨"cd".toList, "length_fallback+tail"⟩] (by decide)
    ⟨"ab,".toList, "length_fallback+comma_split"⟩ (by decide)

/-- Counterexample to claim C2 as stated: at `max_len = 0`, which the CLI
accepts, `chunk_text "a"` does not terminate — in the embedding the
fallback loop returns `none` for every fuel
(`fallbackLoop_stuck_at_zero`), so the pipeline yields `none`. -/
theorem claim_C2_counterexample : chunk_text "a" 0 = none := by decide

/-- Claim C2 (amended): for every input string and every `max_len >= 1`,
`chunk_text` terminates and returns a (possibly empty) list of chunk
records without raising; total fuel `length + 1` always suffices.  (At
`max_len <= 0` the Tier-3 fallback loop makes no progress, so the original
claim's "every integer max_len accepted by the interface" fails.) -/
theorem claim_C2 (s : String) (m : Nat) (hm : 1 ≤ m) :
    (chunk_text s m).isSome = true :=
  chunkTextL_isSome hm

/-- Witness for the amended C2 at a concrete input. -/
theorem claim_C2_witness : (chunk_text "Hi there." 200).isSome = true :=
  claim_C2 "Hi there." 200 (by decide)

/-- Claim C3: in the Tier-3 fallback, for a window of size `max_len`
starting at `start` (text still exceeding the budget there), the cut is
chosen in priority order: (a) just after the first comma in the window,
rule `+comma_split`; else (b) at the last occurrence of `" and "` —
tried before `" or "` — accepted only when its offset exceeds 30% of the
window length (modelled exactly as `10 * pos > 3 * max_len`), rule
`+conj_split`; else (c) a hard cut at the window's end, rule
`+length_limit`. -/
theorem claim_C3 (l : List Char) (m start : Nat) (base : String)
    (hwin : start + m ≤ l.length) :
    (∀ i, start ≤ i → i < start + m → l.get? i = some ',' →
      (∀ j, start ≤ j → j < i → l.get? j ≠ some ',') →
      fallbackCut l m base start = (i + 1, base ++ "+comma_split")) ∧
    (∀ p, (∀ j, start ≤ j → j < start + m → l.get? j ≠ some ',') →
      occursAt " and ".toList (sliceL l start (start + m)) p = true →
      (∀ q, occursAt " and ".toList (sliceL l start (start + m)) q = true → q ≤ p) →
      10 * p > 3 * m →
      fallbackCut l m base start = (start + p, base ++ "+conj_split")) ∧
    (∀ p, (∀ j, start ≤ j → j < start + m → l.get? j ≠ some ',') →
      (∀ q, occursAt " and ".toList (sliceL l start (start + m)) q = true →
        10 * q ≤ 3 * m) →
      occursAt " or ".toList (sliceL l start (start + m)) p = true →
      (∀ q, occursAt " or ".toList (sliceL l start (start + m)) q = true → q ≤ p) →
      10 * p > 3 * m →
      fallbackCut l m base start = (start + p, base ++ "+conj_split")) ∧
    ((∀ j, start ≤ j → j < start + m → l.get? j ≠ some ',') →
      (∀ q, occursAt " and ".toList (sliceL l start (start + m)) q = true →
        10 * q ≤ 3 * m) →
      (∀ q, occursAt " or ".toList (sliceL l start (start + m)) q = true →
        10 * q ≤ 3 * m) →
      fallbackCut l m base start = (start + m, base ++ "+length_limit")) := by
  have hmin : min (start + m) l.length = start + m := by omega
  have hlen : (sliceL l start (start + m)).length = m := by
    rw [sliceL_length_eq (by omega) hwin]
    omega
  refine ⟨?_, ?_, ?_, ?_⟩
  · intro i hi1 hi2 hc hleast
    unfold fallbackCut
    rw [hmin]
    dsimp only
    rw [strFind_of_least hi1 hi2 hc hleast]
  · intro p hnoc hocc hmax hth
    unfold fallbackCut
    rw [hmin]
    dsimp only
    rw [strFind_none_of hnoc]
    have hct : conjTry " and ".toList (sliceL l start (start + m)) = some p := by
      apply conjTry_of_spec hocc hmax
      rw [hlen]
      exact hth
    have hcp : conjPos (sliceL l start (start + m)) = some p := by
      unfold conjPos
      rw [hct]
      rfl
    rw [hcp]
  · intro p hnoc hand hocc hmax hth
    unfold fallbackCut
    rw [hmin]
    dsimp only
    rw [strFind_none_of hnoc]
    have hand2 : conjTry " and ".toList (sliceL l start (start + m)) = none := by
      apply conjTry_none_of
      intro q hq
      rw [hlen]
      exact hand q hq
    have hor : conjTry " or ".toList (sliceL l start (start + m)) = some p := by
      apply conjTry_of_spec hocc hmax
      rw [hlen]
      exact hth
    have hcp : conjPos (sliceL l start (start + m)) = some p := by
      unfold conjPos
      rw [hand2, hor]
      rfl
    rw [hcp]
  · intro hnoc hand hor
    unfold fallbackCut
    rw [hmin]
    dsimp only
    rw [strFind_none_of hnoc]
    have hand2 : conjTry " and ".toList (sliceL l start (start + m)) = none := by
      apply conjTry_none_of
      intro q hq
      rw [hlen]
      exact hand q hq
    have hor2 : conjTry " or ".toList (sliceL l start (start + m)) = none := by
      apply conjTry_none_of
      intro q hq
      rw [hlen]
      exact hor q hq
    have hcp : conjPos (sliceL l start (start + m)) = none := by
      unfold conjPos
      rw [hand2, hor2]
      rfl
    rw [hcp]

/-- Witness for C3 (comma case) at a concrete input. -/
theorem claim_C3_witness :
    fallbackCut "ab,cdef".toList 4 "length_fallback" 0 =
      (3, "length_fallback" ++ "+comma_split") :=
  (claim_C3 "ab,cdef".toList 4 0 "length_fallback" (by decide)).1 2
    (by decide) (by decide) (by decide)
    (fun j h1 h2 => by interval_cases j <;> decide)

/-- Claim C4: the Tier-2 subordinator splitter uses the sorted,
deduplicated match offsets (`find_subordinator_positions` is strictly
increasing) as clause boundaries, inserts a boundary `0` when the first
offset is not `0`, forms one clause per consecutive boundary pair (the
last extending to the end of the text), emits within-budget clauses with
rule `clause_subordinator`, hands longer ones to Tier 3 with base rule
`clause_subordinator`, and sends the whole span to Tier 3 when no
subordinator occurs: `split_by_subordinators` coincides with the
specification-shaped `subSplitSpec`. -/
theorem claim_C4 (l : List Char) (m : Nat) :
    (find_subordinator_positions l).Pairwise (· < ·) ∧
      split_by_subordinators l m = subSplitSpec l m :=
  ⟨positions_sorted l, split_by_subordinators_eq_spec l m⟩

/-- Claim C5: for every input and `max_len >= 1`, concatenating the texts
of all chunks returned by `chunk_text`, in order and ignoring whitespace,
reconstructs the normalized input text with no characters reordered,
duplicated or lost other than whitespace. -/
theorem claim_C5 (s : String) (m : Nat) (hm : 1 ≤ m) (cs : List ChunkRec)
    (h : chunk_text s m = some cs) :
    noWs (concatL (cs.map ChunkRec.chunk)) = noWs (normalize_for_tts s.toList) :=
  chunkTextL_noWs h

/-- Witness for C5 at a concrete input. -/
theorem claim_C5_witness :
    noWs (concatL (([⟨"Hi there.".toList, "sentence", 9⟩] :
        List ChunkRec).map ChunkRec.chunk)) =
      noWs (normalize_for_tts "Hi there.".toList) :=
  claim_C5 "Hi there." 200 (by decide)
    [⟨"Hi there.".toList, "sentence", 9⟩] (by decide)

/-- Counterexample to claim C6 as stated: in `"Asia-particularly"` the
dash at index 4 is flanked by the alphanumerics `a` and `p`, yet
normalization converts it to a comma (the discourse-marker pass fires
before the residual pass), leaving no hyphen in the output. -/
theorem claim_C6_counterexample :
    "Asia-particularly".toList.get? 4 = some '-' ∧
      isDashLike '-' = true ∧
      "Asia-particularly".toList.get? 3 = some 'a' ∧ pyIsAlnum 'a' = true ∧
      "Asia-particularly".toList.get? 5 = some 'p' ∧ pyIsAlnum 'p' = true ∧
      normalize_for_tts "Asia-particularly".toList =
        "Asia, particularly".toList ∧
      ¬ '-' ∈ normalize_for_tts "Asia-particularly".toList := by
  refine ⟨by decide, by decide, by decide, by decide, by decide, by decide,
    by decide, by decide⟩

/-- Claim C6 (amended): in the residual dash pass (pass 3 of
normalization), every dash flanked by alphanumerics on both sides is
preserved as a hyphen and never converted to a comma; the earlier aside
and discourse passes may rewrite such dashes (as the counterexample
shows).  In particular `"cross-pollination is common."` passes through
normalization unchanged, hyphen intact. -/
theorem claim_C6 :
    (∀ (out : List Char) (prev d b : Char) (rest : List Char),
      pyIsAlnum prev = true → pyIsAlnum b = true → isDashLike d = true →
      residAux out prev (d :: b :: rest) = residAux ('-' :: out) d (b :: rest)) ∧
    normalize_for_tts "cross-pollination is common.".toList =
      "cross-pollination is common.".toList :=
  ⟨fun out prev d b rest h1 h2 h3 => residAux_alnum_dash out prev d b rest h1 h2 h3,
    by decide⟩

/-- Witness for the amended C6 at concrete characters. -/
theorem claim_C6_witness :
    residAux [] 'a' ['-', 'b'] = residAux ['-'] '-' ['b'] :=
  claim_C6.1 [] 'a' '-' 'b' [] (by decide) (by decide) (by decide)

/-- Claim C7: the bracketed-aside pass rewrites a span dash, run of
non-dash characters, dash into `", <trimmed inner>, "` exactly when the
trimmed enclosed span contains a space, and leaves space-free enclosed
spans untouched; scanning resumes after the span either way.  In
particular `"associated-though possibly inaccurately-with the data"`
normalizes to `"associated, though possibly inaccurately, with the
data"`. -/
theorem claim_C7 :
    (∀ (pre : List Char) (d1 : Char) (inner : List Char) (d2 : Char)
      (post : List Char),
      (∀ c ∈ pre, isDashLike c = false) → isDashLike d1 = true →
      (∀ c ∈ inner, isDashLike c = false ∧ c ≠ '\n') → isDashLike d2 = true →
      asidePass (pre ++ d1 :: (inner ++ d2 :: post)) =
        pre ++ ((if (pyStrip inner).contains ' ' then
            ", ".toList ++ pyStrip inner ++ ", ".toList
          else d1 :: (inner ++ [d2])) ++ asidePass post)) ∧
    normalize_for_tts "associated-though possibly inaccurately-with the data".toList =
      "associated, though possibly inaccurately, with the data".toList := by
  constructor
  · intro pre d1 inner d2 post hpre hd1 hinner hd2
    unfold asidePass
    have key := asideAux_no_dash pre (d1 :: (inner ++ d2 :: post)) hpre
    rw [key]
    congr 1
    rw [asideAux, if_pos hd1,
      asideAux_inner inner d1 [] d2 post hinner hd2]
    simp
  · decide

/-- Witness for C7 at a concrete input. -/
theorem claim_C7_witness :
    asidePass ("x ".toList ++ '-' :: ("a b".toList ++ '—' :: "y".toList)) =
      "x ".toList ++ ((if (pyStrip "a b".toList).contains ' ' then
          ", ".toList ++ pyStrip "a b".toList ++ ", ".toList
        else '-' :: ("a b".toList ++ ['—'])) ++ asidePass "y".toList) :=
  claim_C7.1 "x ".toList '-' "a b".toList '—' "y".toList
    (by decide) (by decide) (by decide) (by decide)

/-- Claim C8: every chunk record returned by `chunk_text` has non-empty
trimmed text (the stored text equals its own trim and is not empty) and
its `length` field equals the exact character count of the stored text. -/
theorem claim_C8 (s : String) (m : Nat) (cs : List ChunkRec)
    (h : chunk_text s m = some cs) :
    ∀ c ∈ cs, pyStrip c.chunk = c.chunk ∧ c.chunk ≠ [] ∧
      c.length = c.chunk.length := by
  intro c hc
  obtain ⟨_, hlen, hstrip, hne⟩ := chunkTextL_mem h c hc
  exact ⟨hstrip, hne, hlen⟩

/-- Witness for C8 at a concrete input. -/
theorem claim_C8_witness :
    pyStrip (⟨"Hi there.".toList, "sentence", 9⟩ : ChunkRec).chunk =
        (⟨"Hi there.".toList, "sentence", 9⟩ : ChunkRec).chunk ∧
      (⟨"Hi there.".toList, "sentence", 9⟩ : ChunkRec).chunk ≠ [] ∧
      (⟨"Hi there.".toList, "sentence", 9⟩ : ChunkRec).length =
        (⟨"Hi there.".toList, "sentence", 9⟩ : ChunkRec).chunk.length :=
  claim_C8 "Hi there." 200 [⟨"Hi there.".toList, "sentence", 9⟩] (by decide)
    ⟨"Hi there.".toList, "sentence", 9⟩ (by decide)

/-- Counterexample to claim C9 as stated: normalizing `"- -"` twice
yields `", ,"` — two commas separated only by whitespace, the pattern the
claim forbids (it already appears after one normalization and is a fixed
point). -/
theorem claim_C9_counterexample :
    normalize_for_tts (normalize_for_tts "- -".toList) = [',', ' ', ','] := by
  decide

/-- Claim C9 (amended): re-running normalization introduces no adjacent
double comma: no output of `normalize_for_tts`, and in particular no
twice-normalized string, contains the substring `",,"`.  Two commas
separated by whitespace (`", ,"`) can, however, appear and persist, as
the counterexample shows. -/
theorem claim_C9 (l : List Char) :
    decide ([',', ','] <:+: normalize_for_tts (normalize_for_tts l)) = false := by
  rw [decide_eq_false_iff_not]
  exact normalize_no_adjacent_commas _

/-- Claim C10 (implicit): for every input and `max_len >= 1`, every chunk
record returned by `chunk_text` — `sentence`, `comma_first`,
`clause_subordinator` and every fallback fragment, the final `+tail`
fragment included — has length at most `max_len`, both in its `length`
field and in its stored text. -/
theorem claim_C10 (s : String) (m : Nat) (hm : 1 ≤ m) (cs : List ChunkRec)
    (h : chunk_text s m = some cs) :
    ∀ c ∈ cs, c.length ≤ m ∧ c.chunk.length ≤ m := by
  intro c hc
  obtain ⟨h1, h2, _, _⟩ := chunkTextL_mem h c hc
  refine ⟨h1, ?_⟩
  rw [← h2]
  exact h1

/-- Witness for C10 at a concrete input whose decomposition uses the
fallback tiers, tail fragment included. -/
theorem claim_C10_witness :
    (⟨"qrstuv".toList, "length_fallback+tail", 6⟩ : ChunkRec).length ≤ 10 ∧
      (⟨"qrstuv".toList, "length_fallback+tail", 6⟩ : ChunkRec).chunk.length ≤ 10 :=
  claim_C10 "abcdefghij klmnop and qrstuv" 10 (by decide)
    [⟨"abcdefghij".toList, "length_fallback+length_limit", 10⟩,
     ⟨"klmnop and".toList, "length_fallback+length_limit", 10⟩,
     ⟨"qrstuv".toList, "length_fallback+tail", 6⟩] (by decide)
    ⟨"qrstuv".toList, "length_fallback+tail", 6⟩ (by decide)
